import Mathlib

/-!
Verification development for the mini_engine search-engine core.

The TypeScript sources are shallowly embedded as follows:

* JavaScript numbers are modelled as rationals.  The two transcendental
  library functions reached by the core, Math.log and Math.sqrt, are kept
  abstract: every scoring definition is parametrised by a MathOps record
  holding the two functions.  All structural claims are proved for every
  choice of MathOps; concrete evaluations instantiate them explicitly.
* A JavaScript Map is an insertion-ordered association list with unique
  keys: set updates an existing key in place and appends a fresh key at the
  end, delete removes the entry, iteration follows the list order.
* A JavaScript Set is an insertion-ordered duplicate-free list.
* Array.prototype.sort with a user comparator (stable since ES2019) is
  modelled by a stable insertion sort keyed on the comparator being
  non-positive.
* Strings are lists of Unicode scalar values (Lean Char); string order is
  the lexicographic order on the character values, matching the JavaScript
  string comparison for all strings the engine manipulates.
* Buffer UTF-8 and base64 conversions are modelled by executable encoders
  and decoders over byte lists, verified to round-trip.
-/

abbrev DocId := String
abbrev Term := String

/-! JavaScript Map / Set primitives. -/

/-- Lookup in an insertion-ordered association list (Map.prototype.get). -/
def mapGet {κ β : Type} [DecidableEq κ] : List (κ × β) → κ → Option β
  | [], _ => none
  | (k2, v) :: t, k => if k2 = k then some v else mapGet t k

/-- Update or append in an insertion-ordered association list
(Map.prototype.set): an existing key keeps its iteration position, a fresh
key is appended at the end. -/
def mapSet {κ β : Type} [DecidableEq κ] : List (κ × β) → κ → β → List (κ × β)
  | [], k, v => [(k, v)]
  | (k2, v2) :: t, k, v => if k2 = k then (k2, v) :: t else (k2, v2) :: mapSet t k v

/-- Removal from an insertion-ordered association list (Map.prototype.delete). -/
def mapDelete {κ β : Type} [DecidableEq κ] : List (κ × β) → κ → List (κ × β)
  | [], _ => []
  | (k2, v2) :: t, k => if k2 = k then t else (k2, v2) :: mapDelete t k

/-- Insertion into a JavaScript Set (Set.prototype.add): no-op on a member,
append otherwise. -/
def setAdd {κ : Type} [DecidableEq κ] (s : List κ) (k : κ) : List κ :=
  if k ∈ s then s else s ++ [k]

theorem mapGet_set_self {κ β : Type} [DecidableEq κ] (m : List (κ × β)) (k : κ) (v : β) :
    mapGet (mapSet m k v) k = some v := by
  induction m with
  | nil => simp [mapSet, mapGet]
  | cons h t ih =>
    obtain ⟨k2, v2⟩ := h
    by_cases hk : k2 = k <;> simp [mapSet, mapGet, hk, ih]

theorem mapGet_set_ne {κ β : Type} [DecidableEq κ] (m : List (κ × β)) (k k2 : κ) (v : β)
    (h : k ≠ k2) : mapGet (mapSet m k v) k2 = mapGet m k2 := by
  induction m with
  | nil => simp [mapSet, mapGet, h]
  | cons hd t ih =>
    obtain ⟨k3, v3⟩ := hd
    by_cases hk : k3 = k
    · subst hk
      simp [mapSet, mapGet, h]
    · simp [mapSet, mapGet, hk, ih]

theorem mapSet_keys {κ β : Type} [DecidableEq κ] (m : List (κ × β)) (k : κ) (v : β) :
    (mapSet m k v).map Prod.fst =
      if k ∈ m.map Prod.fst then m.map Prod.fst else m.map Prod.fst ++ [k] := by
  induction m with
  | nil => simp [mapSet]
  | cons hd t ih =>
    obtain ⟨k2, v2⟩ := hd
    by_cases hk : k2 = k
    · subst hk
      simp [mapSet]
    · have hne : ¬ k = k2 := fun h => hk h.symm
      by_cases hmem : k ∈ t.map Prod.fst <;>
        simp [mapSet, hk, hne, hmem, ih]

theorem mapSet_keys_nodup {κ β : Type} [DecidableEq κ] (m : List (κ × β)) (k : κ) (v : β)
    (h : (m.map Prod.fst).Nodup) : ((mapSet m k v).map Prod.fst).Nodup := by
  rw [mapSet_keys]
  by_cases hmem : k ∈ m.map Prod.fst
  · simpa [hmem] using h
  · simp only [hmem, if_false]
    refine List.Nodup.append h (List.nodup_singleton k) ?_
    intro a ha hb
    have : a = k := by simpa using hb
    exact hmem (this ▸ ha)

/-! Stable comparator sort (Array.prototype.sort, stable since ES2019). -/

/-- Relation induced by a JavaScript comparator: a sorts no later than b. -/
def cmpLe {α : Type} (cmp : α → α → ℚ) (a b : α) : Prop := cmp a b ≤ 0

instance {α : Type} (cmp : α → α → ℚ) : DecidableRel (cmpLe cmp) := by
  intro a b
  unfold cmpLe
  infer_instance

/-- Model of Array.prototype.sort with a user comparator: a stable insertion
sort placing a before b whenever the comparator is non-positive. -/
def jsSort {α : Type} (cmp : α → α → ℚ) (l : List α) : List α :=
  List.insertionSort (cmpLe cmp) l

theorem jsSort_perm {α : Type} (cmp : α → α → ℚ) (l : List α) : (jsSort cmp l).Perm l :=
  List.perm_insertionSort _ l

theorem jsSort_length {α : Type} (cmp : α → α → ℚ) (l : List α) :
    (jsSort cmp l).length = l.length :=
  List.length_insertionSort _ l

theorem pairwise_orderedInsert {α : Type} (R : α → α → Prop) [DecidableRel R]
    (htrans : ∀ a b c, R a b → R b c → R a c) (x : α) (l : List α)
    (hsort : l.Pairwise R) (htot : ∀ b ∈ l, R x b ∨ R b x) :
    (List.orderedInsert R x l).Pairwise R := by
  induction l with
  | nil => simp
  | cons b t ih =>
    by_cases hxb : R x b
    · simp only [List.orderedInsert, if_pos hxb]
      refine List.Pairwise.cons ?_ hsort
      intro c hc
      rcases List.mem_cons.mp hc with rfl | hct
      · exact hxb
      · exact htrans _ _ _ hxb (List.rel_of_pairwise_cons hsort hct)
    · simp only [List.orderedInsert, if_neg hxb]
      refine List.Pairwise.cons ?_ (ih hsort.of_cons (fun c hc => htot c (List.mem_cons_of_mem _ hc)))
      intro c hc
      rcases (List.mem_orderedInsert R).mp hc with rfl | hct
      · rcases htot b (List.mem_cons_self _ _) with h | h
        · exact absurd h hxb
        · exact h
      · exact List.rel_of_pairwise_cons hsort hct

theorem pairwise_insertionSort {α : Type} (R : α → α → Prop) [DecidableRel R]
    (htrans : ∀ a b c, R a b → R b c → R a c) (l : List α)
    (htot : l.Pairwise (fun a b => R a b ∨ R b a)) :
    (List.insertionSort R l).Pairwise R := by
  induction l with
  | nil => simp
  | cons x t ih =>
    simp only [List.insertionSort]
    refine pairwise_orderedInsert R htrans x _ (ih htot.of_cons) ?_
    intro b hb
    exact List.rel_of_pairwise_cons htot ((List.perm_insertionSort R t).mem_iff.mp hb)

/-- Sortedness of a jsSort output, assuming the comparator-induced order is
transitive and total across the elements of the list. -/
theorem jsSort_pairwise {α : Type} (cmp : α → α → ℚ) (l : List α)
    (htrans : ∀ a b c, cmpLe cmp a b → cmpLe cmp b c → cmpLe cmp a c)
    (htot : l.Pairwise (fun a b => cmpLe cmp a b ∨ cmpLe cmp b a)) :
    (jsSort cmp l).Pairwise (cmpLe cmp) :=
  pairwise_insertionSort _ htrans l htot

/-! Tokenizer (src/core/impl/simpleTokenizer.ts). -/

/-- Built-in English stop list of SimpleTokenizer. -/
def DEFAULT_STOP_WORDS : List String :=
  ["a", "an", "and", "are", "as", "at", "be", "but", "by", "for", "if", "in",
   "into", "is", "it", "no", "not", "of", "on", "or", "such", "that", "the",
   "their", "then", "there", "these", "they", "this", "to", "was", "will", "with"]

/-- Token record of src/core/types.ts (offsets always produced by
SimpleTokenizer, so modelled as plain fields). -/
structure Token where
  term : Term
  position : Nat
  startOffset : Nat
  endOffset : Nat
deriving DecidableEq

/-- Options record of src/core/tokenizer.ts. -/
structure TokenizeOptions where
  normalizeCase : Option Bool
  removeStopWords : Option Bool
deriving DecidableEq

/-- Character-class test of simpleTokenizer.ts (ASCII 0-9, A-Z, a-z). -/
def isAlphaNum (code : Nat) : Bool :=
  (decide (48 ≤ code ∧ code ≤ 57)) || (decide (65 ≤ code ∧ code ≤ 90)) ||
    (decide (97 ≤ code ∧ code ≤ 122))

/-- ASCII lowering of one character; String.prototype.toLowerCase coincides
with this on the ASCII-alphanumeric runs the tokenizer produces. -/
def toLowerChar (c : Char) : Char :=
  if 65 ≤ c.toNat ∧ c.toNat ≤ 90 then Char.ofNat (c.toNat + 32) else c

/-- Model of String.prototype.toLowerCase on engine strings. -/
def jsToLowerCase (s : String) : String := ⟨s.data.map toLowerChar⟩

/-- Scanning loop of SimpleTokenizer.tokenize: cs is the rest of the text,
i the absolute character index of its head, position the raw token counter.
The generator is modelled eagerly as the list of all yielded tokens; fuel
bounds the loop iterations structurally and any fuel of at least the length
of cs is enough, since every iteration consumes at least one character. -/
def tokenizeAux (stop : List String) (normalizeCase removeStopWords : Bool) :
    Nat → List Char → Nat → Nat → List Token
  | 0, _, _, _ => []
  | _ + 1, [], _, _ => []
  | fuel + 1, c :: rest, i, position =>
    if ¬ isAlphaNum c.toNat then
      tokenizeAux stop normalizeCase removeStopWords fuel rest (i + 1) position
    else
      let run := c :: rest.takeWhile (fun x => isAlphaNum x.toNat)
      let restAfter := rest.dropWhile (fun x => isAlphaNum x.toNat)
      let rawTerm : String := ⟨run⟩
      let term := if normalizeCase then jsToLowerCase rawTerm else rawTerm
      let tok : Token := ⟨term, position, i, i + run.length⟩
      if removeStopWords = false ∨ ¬ term ∈ stop then
        tok :: tokenizeAux stop normalizeCase removeStopWords fuel restAfter (i + run.length) (position + 1)
      else
        tokenizeAux stop normalizeCase removeStopWords fuel restAfter (i + run.length) (position + 1)

namespace SimpleTokenizer

/-- SimpleTokenizer.tokenize with the default stop list. -/
def tokenize (text : String) (options : TokenizeOptions) : List Token :=
  let normalizeCase := options.normalizeCase.getD true
  let removeStopWords := options.removeStopWords.getD false
  tokenizeAux DEFAULT_STOP_WORDS normalizeCase removeStopWords text.data.length text.data 0 0

end SimpleTokenizer

theorem tokenizeAux_positions (stop : List String) (nc : Bool) :
    ∀ fuel cs i p, List.length cs ≤ fuel →
      (tokenizeAux stop nc false fuel cs i p).map Token.position =
        List.range' p (tokenizeAux stop nc false fuel cs i p).length := by
  intro fuel
  induction fuel with
  | zero =>
    intro cs i p hlen
    simp [tokenizeAux]
  | succ n ih =>
    intro cs i p hlen
    match cs with
    | [] => simp [tokenizeAux]
    | c :: rest =>
      by_cases hc : isAlphaNum c.toNat
      · have hdw : (rest.dropWhile (fun x => isAlphaNum x.toNat)).length ≤ n := by
          have : (rest.dropWhile (fun x => isAlphaNum x.toNat)).length ≤ rest.length :=
            (List.dropWhile_sublist (fun x : Char => isAlphaNum x.toNat)).length_le
          simp only [List.length_cons] at hlen
          omega
        have htail := ih (rest.dropWhile (fun x => isAlphaNum x.toNat))
          (i + (c :: rest.takeWhile (fun x => isAlphaNum x.toNat)).length) (p + 1) hdw
        simp only [List.length_cons] at htail
        rw [tokenizeAux]
        simp [hc, htail, List.range']
      · rw [tokenizeAux]
        simp only [hc, Bool.false_eq_true, not_false_eq_true, if_true]
        exact ih rest (i + 1) p (by simp only [List.length_cons] at hlen; omega)

theorem tokenizeAux_removeStop (stop : List String) (nc : Bool) :
    ∀ fuel cs i p, List.length cs ≤ fuel →
      tokenizeAux stop nc true fuel cs i p =
        (tokenizeAux stop nc false fuel cs i p).filter (fun t => decide (¬ t.term ∈ stop)) := by
  intro fuel
  induction fuel with
  | zero =>
    intro cs i p hlen
    simp [tokenizeAux]
  | succ n ih =>
    intro cs i p hlen
    match cs with
    | [] => simp [tokenizeAux]
    | c :: rest =>
      by_cases hc : isAlphaNum c.toNat
      · have hdw : (rest.dropWhile (fun x => isAlphaNum x.toNat)).length ≤ n := by
          have : (rest.dropWhile (fun x => isAlphaNum x.toNat)).length ≤ rest.length :=
            (List.dropWhile_sublist (fun x : Char => isAlphaNum x.toNat)).length_le
          simp only [List.length_cons] at hlen
          omega
        have htail := ih (rest.dropWhile (fun x => isAlphaNum x.toNat))
          (i + (c :: rest.takeWhile (fun x => isAlphaNum x.toNat)).length) (p + 1) hdw
        simp only [List.length_cons] at htail
        rw [tokenizeAux, tokenizeAux]
        by_cases hstop :
            (if nc then jsToLowerCase ⟨c :: rest.takeWhile (fun x => isAlphaNum x.toNat)⟩
             else (⟨c :: rest.takeWhile (fun x => isAlphaNum x.toNat)⟩ : String)) ∈ stop
        · simp [hc, hstop, htail, List.filter_cons]
        · simp [hc, hstop, htail, List.filter_cons]
      · rw [tokenizeAux, tokenizeAux]
        simp only [hc, Bool.false_eq_true, not_false_eq_true, if_true]
        exact ih rest (i + 1) p (by simp only [List.length_cons] at hlen; omega)

/-! Inverted index (MemoryInvertedIndex). -/

/-- Posting record of src/core/invertedIndex.ts. -/
structure Posting where
  docId : DocId
  tf : ℚ
  positions : Option (List Nat)
deriving DecidableEq

/-- PostingsList record of src/core/invertedIndex.ts. -/
structure PostingsList where
  term : Term
  df : Nat
  postings : List Posting
deriving DecidableEq

/-- IndexStats record (avgDocLen is never produced by MemoryInvertedIndex). -/
structure IndexStats where
  docCount : Nat
deriving DecidableEq

/-- PostingEntry of memoryInvertedIndex.ts. -/
structure PostingEntry where
  tf : ℚ
  positions : Option (List Nat)
deriving DecidableEq

/-- State of a MemoryInvertedIndex instance: term to (docId to entry) map
plus the registered document set. -/
structure IndexState where
  termToDocMap : List (Term × List (DocId × PostingEntry))
  docs : List DocId
deriving DecidableEq

namespace MemoryInvertedIndex

/-- Freshly constructed MemoryInvertedIndex. -/
def empty : IndexState := ⟨[], []⟩

/-- MemoryInvertedIndex.addDocument: registers the doc and upserts one entry
per supplied term; entries of the same doc under terms absent from
termFrequencies are left untouched. -/
def addDocument (s : IndexState) (docId : DocId) (termFrequencies : List (Term × ℚ))
    (positionsByTerm : Option (List (Term × List Nat))) : IndexState :=
  { docs := setAdd s.docs docId
    termToDocMap := termFrequencies.foldl
      (fun m tv =>
        let docMap := (mapGet m tv.1).getD []
        mapSet m tv.1 (mapSet docMap docId ⟨tv.2, positionsByTerm.bind (fun p => mapGet p tv.1)⟩))
      s.termToDocMap }

/-- MemoryInvertedIndex.removeDocument: no-op on unknown docs, otherwise
deletes the doc from the doc set and from every per-term doc map (leaving
possibly empty doc maps in place). -/
def removeDocument (s : IndexState) (docId : DocId) : IndexState :=
  if docId ∈ s.docs then
    { docs := s.docs.erase docId
      termToDocMap := s.termToDocMap.map (fun tm => (tm.1, mapDelete tm.2 docId)) }
  else s

/-- Comparator used by getPostings to canonicalise postings by docId. -/
def postingCmp (a b : Posting) : ℚ :=
  if a.docId < b.docId then -1 else if b.docId < a.docId then 1 else 0

/-- MemoryInvertedIndex.getPostings: materialises the per-term doc map as a
docId-sorted postings array; absent only when the term was never indexed. -/
def getPostings (s : IndexState) (term : Term) : Option PostingsList :=
  match mapGet s.termToDocMap term with
  | none => none
  | some docMap =>
    let postings := docMap.map (fun de => Posting.mk de.1 de.2.tf de.2.positions)
    let sorted := jsSort postingCmp postings
    some ⟨term, sorted.length, sorted⟩

/-- MemoryInvertedIndex.hasTerm: true iff the term has a non-empty doc map. -/
def hasTerm (s : IndexState) (term : Term) : Bool :=
  match mapGet s.termToDocMap term with
  | none => false
  | some m => decide (0 < m.length)

/-- MemoryInvertedIndex.getStats. -/
def getStats (s : IndexState) : IndexStats := ⟨s.docs.length⟩

end MemoryInvertedIndex

/-- Call trace element against a single MemoryInvertedIndex instance. -/
inductive IndexOp
  | add (docId : DocId) (termFrequencies : List (Term × ℚ))
      (positionsByTerm : Option (List (Term × List Nat)))
  | remove (docId : DocId)

/-- Replay of a call trace from a fresh index. -/
def applyOps (ops : List IndexOp) : IndexState :=
  ops.foldl
    (fun s op =>
      match op with
      | IndexOp.add d tf p => MemoryInvertedIndex.addDocument s d tf p
      | IndexOp.remove d => MemoryInvertedIndex.removeDocument s d)
    MemoryInvertedIndex.empty

theorem getPostings_df_eq_length (s : IndexState) (t : Term) :
    ∀ pl, MemoryInvertedIndex.getPostings s t = some pl → pl.df = pl.postings.length := by
  intro pl h
  unfold MemoryInvertedIndex.getPostings at h
  cases hm : mapGet s.termToDocMap t with
  | none => rw [hm] at h; cases h
  | some docMap =>
    rw [hm] at h
    simp only [Option.some.injEq] at h
    subst h
    rfl

theorem getPostings_df_zero_hasTerm (s : IndexState) (t : Term) (pl : PostingsList)
    (h : MemoryInvertedIndex.getPostings s t = some pl) (hdf : pl.df = 0) :
    MemoryInvertedIndex.hasTerm s t = false := by
  unfold MemoryInvertedIndex.getPostings at h
  unfold MemoryInvertedIndex.hasTerm
  cases hm : mapGet s.termToDocMap t with
  | none => rw [hm] at h
  | some docMap =>
    rw [hm] at h
    simp only [Option.some.injEq] at h
    subst h
    simp only [PostingsList.df] at hdf
    rw [jsSort_length, List.length_map] at hdf
    simp [hdf]

/-! Buffer codecs (Node Buffer UTF-8 and base64 conversions used for the
search cursor). -/

/-- UTF-8 encoding of a single Unicode scalar value. -/
def utf8EncodeChar (c : Nat) : List Nat :=
  if c < 128 then [c]
  else if c < 2048 then [192 + c / 64, 128 + c % 64]
  else if c < 65536 then [224 + c / 4096, 128 + c / 64 % 64, 128 + c % 64]
  else [240 + c / 262144, 128 + c / 4096 % 64, 128 + c / 64 % 64, 128 + c % 64]

/-- Model of Buffer.from(s, utf8): the UTF-8 bytes of a string. -/
def utf8Encode (s : String) : List Nat := s.data.flatMap (fun c => utf8EncodeChar c.toNat)

/-- Model of buf.toString(utf8), exact on every valid encoding (invalid
sequences, which never arise on the verified paths, read fallback zero
bytes).  The fuel argument bounds the loop structurally; one unit per
decoded character is consumed, so any fuel of at least the byte count is
enough. -/
def utf8Decode : Nat → List Nat → List Char
  | 0, _ => []
  | _ + 1, [] => []
  | fuel + 1, b0 :: rest =>
    if b0 < 128 then Char.ofNat b0 :: utf8Decode fuel rest
    else if b0 < 224 then
      Char.ofNat ((b0 - 192) * 64 + (rest.headD 0 - 128)) :: utf8Decode fuel (rest.drop 1)
    else if b0 < 240 then
      Char.ofNat ((b0 - 224) * 4096 + (rest.headD 0 - 128) * 64 + ((rest.drop 1).headD 0 - 128)) ::
        utf8Decode fuel (rest.drop 2)
    else
      Char.ofNat ((b0 - 240) * 262144 + (rest.headD 0 - 128) * 4096 +
          ((rest.drop 1).headD 0 - 128) * 64 + ((rest.drop 2).headD 0 - 128)) ::
        utf8Decode fuel (rest.drop 3)

/-- Base64 alphabet of RFC 4648 as used by Node Buffer. -/
def b64Alphabet : List Char :=
  ("ABCDEFGHIJKLMNOPQRSTUVWXYZabcdefghijklmnopqrstuvwxyz0123456789+/").data

/-- Character for a 6-bit group. -/
def b64Char (n : Nat) : Char := b64Alphabet.getD n 'A'

/-- Value of an alphabet character. -/
def b64Val (c : Char) : Nat := List.indexOf c b64Alphabet

/-- Model of buf.toString(base64). -/
def b64Encode : List Nat → List Char
  | b0 :: b1 :: b2 :: rest =>
    let n := b0 * 65536 + b1 * 256 + b2
    b64Char (n / 262144) :: b64Char (n / 4096 % 64) :: b64Char (n / 64 % 64) :: b64Char (n % 64) ::
      b64Encode rest
  | [b0, b1] =>
    let n := b0 * 65536 + b1 * 256
    [b64Char (n / 262144), b64Char (n / 4096 % 64), b64Char (n / 64 % 64), '=']
  | [b0] =>
    let n := b0 * 65536
    [b64Char (n / 262144), b64Char (n / 4096 % 64), '=', '=']
  | [] => []

/-- Model of Buffer.from(s, base64), exact on canonical encoder output. -/
def b64Decode : List Char → List Nat
  | c0 :: c1 :: c2 :: c3 :: rest =>
    let v0 := b64Val c0
    let v1 := b64Val c1
    if c2 = '=' then [v0 * 4 + v1 / 16]
    else if c3 = '=' then
      let v2 := b64Val c2
      [v0 * 4 + v1 / 16, v1 % 16 * 16 + v2 / 4]
    else
      let v2 := b64Val c2
      let v3 := b64Val c3
      (v0 * 4 + v1 / 16) :: (v1 % 16 * 16 + v2 / 4) :: (v2 % 4 * 64 + v3) :: b64Decode rest
  | _ => []

/-- Model of the composite Buffer.from(docId, utf8).toString(base64). -/
def cursorEncode (s : String) : String := ⟨b64Encode (utf8Encode s)⟩

/-- Model of the composite Buffer.from(cursor, base64).toString(utf8). -/
def cursorDecode (s : String) : String :=
  ⟨utf8Decode (b64Decode s.data).length (b64Decode s.data)⟩

/-- Node of memoryTrie.ts; children model the JS Map (insertion-ordered,
unique keys). -/
inductive TrieNode where
  | mk (children : List (Char × TrieNode)) (terminal : Bool) (weight : Nat)

/-- Children accessor. -/
def TrieNode.children : TrieNode → List (Char × TrieNode)
  | ⟨c, _, _⟩ => c

/-- Terminal-flag accessor. -/
def TrieNode.terminal : TrieNode → Bool
  | ⟨_, t, _⟩ => t

/-- Weight accessor. -/
def TrieNode.weight : TrieNode → Nat
  | ⟨_, _, w⟩ => w

/-- makeNode of memoryTrie.ts. -/
def makeNode : TrieNode := ⟨[], false, 0⟩

/-- TrieInsertOptions of src/core/trie.ts. -/
structure TrieInsertOptions where
  trackFrequency : Option Bool
deriving DecidableEq

/-- TriePrefixResult of src/core/trie.ts; a zero stored weight is reported
as an absent weight (the source writes weight: node.weight || undefined). -/
structure TriePrefixResult where
  term : Term
  weight : Option Nat
deriving DecidableEq

namespace MemoryTrie

/-- Recursive core of MemoryTrie.insert. -/
def insertAux : TrieNode → List Char → Bool → TrieNode
  | ⟨children, _, weight⟩, [], tf => ⟨children, true, if tf then weight + 1 else weight⟩
  | ⟨children, terminal, weight⟩, c :: cs, tf =>
    let next := (mapGet children c).getD makeNode
    ⟨mapSet children c (insertAux next cs tf), terminal, weight⟩

/-- MemoryTrie.insert: creates the path, marks the terminal, and increments
the weight when trackFrequency is set. -/
def insert (t : TrieNode) (term : Term) (opts : Option TrieInsertOptions) : TrieNode :=
  insertAux t term.data ((opts.bind TrieInsertOptions.trackFrequency).getD false)

/-- Recursive core of MemoryTrie.remove (lazy unset, no structural pruning). -/
def removeAux : TrieNode → List Char → TrieNode
  | ⟨children, _, _⟩, [] => ⟨children, false, 0⟩
  | node, c :: cs =>
    match mapGet node.children c with
    | none => node
    | some next => ⟨mapSet node.children c (removeAux next cs), node.terminal, node.weight⟩

/-- MemoryTrie.remove. -/
def remove (t : TrieNode) (term : Term) : TrieNode := removeAux t term.data

/-- Recursive core of MemoryTrie.has. -/
def hasAux : TrieNode → List Char → Bool
  | node, [] => node.terminal
  | node, c :: cs =>
    match mapGet node.children c with
    | none => false
    | some next => hasAux next cs

/-- MemoryTrie.has. -/
def has (t : TrieNode) (term : Term) : Bool := hasAux t term.data

/-- Prefix walk at the top of MemoryTrie.complete. -/
def navigateAux : TrieNode → List Char → Option TrieNode
  | node, [] => some node
  | node, c :: cs =>
    match mapGet node.children c with
    | none => none
    | some next => navigateAux next cs

/-- Comparator of the final sort in MemoryTrie.complete: weight descending
(missing treated as 0), then term ascending. -/
def trieCmp (a b : TriePrefixResult) : ℚ :=
  let d : ℚ := (b.weight.getD 0 : ℚ) - (a.weight.getD 0 : ℚ)
  if d ≠ 0 then d else if a.term < b.term then -1 else 1

/-- Children of a node sorted by key, as produced by the traversal's
Array.from(node.children.keys()).sort() followed by per-key Map lookups;
on the JS Map (whose keys are necessarily unique) this equals sorting the
entries by key. -/
def sortedChildren (node : TrieNode) : List (Char × TrieNode) :=
  List.insertionSort (fun a b : Char × TrieNode => a.1 ≤ b.1) node.children

mutual

/-- Size of a trie node (termination measure for the DFS loop). -/
def nodeSize : TrieNode → Nat
  | ⟨children, _, _⟩ => 1 + childrenSize children

/-- Summed size of a children list. -/
def childrenSize : List (Char × TrieNode) → Nat
  | [] => 0
  | e :: t => nodeSize e.2 + childrenSize t

end

/-- Sum of the sizes of the nodes still on the DFS stack (termination
measure of the while loop). -/
def stackWeight (st : List (List Char × TrieNode)) : Nat :=
  (st.map (fun e => nodeSize e.2)).sum

theorem childSum_eq (children : List (Char × TrieNode)) :
    (children.map (fun e => nodeSize e.2)).sum = childrenSize children := by
  induction children with
  | nil => rfl
  | cons h t ih => simp only [List.map_cons, List.sum_cons, childrenSize, ih]

theorem stackWeight_sortedChildren (node : TrieNode) (suffix : List Char) :
    stackWeight ((sortedChildren node).map (fun e => (suffix ++ [e.1], e.2))) < nodeSize node := by
  unfold stackWeight sortedChildren
  have hperm : (List.insertionSort (fun a b : Char × TrieNode => a.1 ≤ b.1) node.children).Perm
      node.children := List.perm_insertionSort _ _
  have hmapperm := (hperm.map (fun e => nodeSize e.2))
  rw [List.map_map]
  have hcongr : ((List.insertionSort (fun a b : Char × TrieNode => a.1 ≤ b.1) node.children).map
      ((fun e => nodeSize e.2) ∘ fun e => (suffix ++ [e.1], e.2))) =
      ((List.insertionSort (fun a b : Char × TrieNode => a.1 ≤ b.1) node.children).map
      (fun e => nodeSize e.2)) := by
    apply List.map_congr_left
    intro e _
    rfl
  rw [hcongr, hmapperm.sum_eq, childSum_eq]
  obtain ⟨children, terminal, weight⟩ := node
  simp only [TrieNode.children, nodeSize]
  omega

/-- While loop of MemoryTrie.complete: pops the stack top, collects a live
terminal, and pushes the children in reverse key order (so they pop in key
order), stopping as soon as out reaches the limit.  The fuel argument bounds
the iterations structurally; any fuel of at least the summed size of the
stacked nodes is enough, since each iteration replaces one node by its
strictly smaller children. -/
def completeLoop (limit : Nat) (pfx : String) :
    Nat → List (List Char × TrieNode) → List TriePrefixResult → List TriePrefixResult
  | 0, _, out => out
  | _ + 1, [], out => out
  | fuel + 1, (suffix, node) :: rest, out =>
    if out.length < limit then
      let out2 := if node.terminal then
          out ++ [⟨pfx ++ (⟨suffix⟩ : String),
                   if node.weight = 0 then none else some node.weight⟩]
        else out
      completeLoop limit pfx fuel
        (((sortedChildren node).map (fun e => (suffix ++ [e.1], e.2))) ++ rest) out2
    else out

/-- MemoryTrie.complete. -/
def complete (t : TrieNode) (pfx : String) (limit : Nat) : List TriePrefixResult :=
  match navigateAux t pfx.data with
  | none => []
  | some cur =>
    (jsSort trieCmp (completeLoop limit pfx (nodeSize cur) [([], cur)] [])).take limit

end MemoryTrie

namespace MemoryTrie

theorem nodeSize_le_of_mem {e : Char × TrieNode} {children : List (Char × TrieNode)}
    (h : e ∈ children) : nodeSize e.2 ≤ childrenSize children := by
  induction children with
  | nil => cases h
  | cons hd t ih =>
    rcases List.mem_cons.mp h with rfl | ht
    · simp only [childrenSize]
      omega
    · have := ih ht
      simp only [childrenSize]
      omega

theorem nodeSize_lt_of_mem_sorted {e : Char × TrieNode} {node : TrieNode}
    (h : e ∈ sortedChildren node) : nodeSize e.2 < nodeSize node := by
  have hmem : e ∈ node.children := (List.perm_insertionSort _ _).mem_iff.mp h
  have hle := nodeSize_le_of_mem hmem
  obtain ⟨children, t, w⟩ := node
  simp only [TrieNode.children] at hle
  simp only [nodeSize]
  omega

/-- Full depth-first enumeration of the live terminals below a node, the
node itself first, then the subtrees in ascending key order: the order in
which the while loop of complete collects results. -/
def lexEntries (pfx : String) (suffix : List Char) (node : TrieNode) : List TriePrefixResult :=
  (if node.terminal then
    [⟨pfx ++ (⟨suffix⟩ : String), if node.weight = 0 then none else some node.weight⟩]
   else []) ++
  (sortedChildren node).attach.flatMap
    (fun e => lexEntries pfx (suffix ++ [e.val.1]) e.val.2)
termination_by nodeSize node
decreasing_by
  simp_wf
  exact nodeSize_lt_of_mem_sorted e.2

theorem lexEntries_eq (pfx : String) (suffix : List Char) (node : TrieNode) :
    lexEntries pfx suffix node =
      (if node.terminal then
        [⟨pfx ++ (⟨suffix⟩ : String), if node.weight = 0 then none else some node.weight⟩]
       else []) ++
      (sortedChildren node).flatMap (fun e => lexEntries pfx (suffix ++ [e.1]) e.2) := by
  rw [lexEntries]
  congr 1
  conv_rhs => rw [(List.attach_map_subtype_val (sortedChildren node)).symm]
  rw [List.flatMap_map]

theorem nodeSize_pos (node : TrieNode) : 1 ≤ nodeSize node := by
  obtain ⟨c, t, w⟩ := node
  simp only [nodeSize]
  omega

theorem completeLoop_eq (limit : Nat) (pfx : String) :
    ∀ fuel st out, stackWeight st ≤ fuel → out.length ≤ limit →
      completeLoop limit pfx fuel st out =
        out ++ (st.flatMap (fun e => lexEntries pfx e.1 e.2)).take (limit - out.length) := by
  intro fuel
  induction fuel with
  | zero =>
    intro st out hfuel hle
    match st with
    | [] => simp [completeLoop]
    | (suffix, node) :: rest =>
      exfalso
      have h1 := nodeSize_pos node
      unfold stackWeight at hfuel
      simp only [List.map_cons, List.sum_cons] at hfuel
      omega
  | succ n ih =>
    intro st out hfuel hle
    match st with
    | [] => simp [completeLoop]
    | (suffix, node) :: rest =>
      by_cases hlt : out.length < limit
      · rw [completeLoop, if_pos hlt]
        rw [List.flatMap_cons, lexEntries_eq]
        have hblock : (List.map (fun e => (suffix ++ [e.1], e.2)) (sortedChildren node)).flatMap
            (fun e => lexEntries pfx e.1 e.2) =
            (sortedChildren node).flatMap (fun e => lexEntries pfx (suffix ++ [e.1]) e.2) := by
          rw [List.flatMap_map]
        have hfuel2 : stackWeight
            (List.map (fun e => (suffix ++ [e.1], e.2)) (sortedChildren node) ++ rest) ≤ n := by
          have hsw := stackWeight_sortedChildren node suffix
          unfold stackWeight at hsw hfuel ⊢
          rw [List.map_append, List.sum_append]
          simp only [List.map_cons, List.sum_cons] at hfuel
          omega
        by_cases hterm : node.terminal = true
        · simp only [hterm, if_true]
          have hlen : (out ++ [(⟨pfx ++ (⟨suffix⟩ : String),
              if node.weight = 0 then none else some node.weight⟩ : TriePrefixResult)]).length ≤ limit := by
            simp only [List.length_append, List.length_singleton]
            omega
          rw [ih _ _ hfuel2 hlen, List.flatMap_append, hblock]
          obtain ⟨k, hk⟩ : ∃ k, limit - out.length = k + 1 := ⟨limit - out.length - 1, by omega⟩
          have hk2 : limit - (out.length + 1) = k := by omega
          simp only [List.nil_append, List.cons_append, hk, List.take_succ_cons,
            List.length_append, List.length_singleton, hk2, List.append_assoc,
            List.singleton_append]
        · simp only [hterm, if_false, Bool.false_eq_true]
          rw [ih _ _ hfuel2 (by omega), List.flatMap_append, hblock, List.nil_append]
      · rw [completeLoop, if_neg hlt]
        have h0 : limit - out.length = 0 := by omega
        rw [h0, List.take_zero, List.append_nil]

theorem complete_eq (t : TrieNode) (pfx : String) (limit : Nat) (cur : TrieNode)
    (h : navigateAux t pfx.data = some cur) :
    complete t pfx limit = (jsSort trieCmp ((lexEntries pfx [] cur).take limit)).take limit := by
  unfold complete
  rw [h]
  have hloop := completeLoop_eq limit pfx (nodeSize cur) [([], cur)] []
    (by unfold stackWeight; simp) (by simp)
  simp only [List.flatMap_cons, List.flatMap_nil, List.append_nil, List.nil_append,
    List.length_nil, Nat.sub_zero] at hloop
  show (jsSort trieCmp (completeLoop limit pfx (nodeSize cur) [([], cur)] [])).take limit = _
  rw [hloop]

end MemoryTrie

theorem mapGet_mem {κ β : Type} [DecidableEq κ] {m : List (κ × β)} {k : κ} {v : β}
    (h : mapGet m k = some v) : (k, v) ∈ m := by
  induction m with
  | nil => cases h
  | cons hd t ih =>
    obtain ⟨k2, v2⟩ := hd
    by_cases hk : k2 = k
    · subst hk
      rw [mapGet, if_pos rfl] at h
      simp only [Option.some.injEq] at h
      subst h
      exact List.mem_cons_self _ _
    · rw [mapGet, if_neg hk] at h
      exact List.mem_cons_of_mem _ (ih h)

theorem mapGet_of_mem_nodup {κ β : Type} [DecidableEq κ] {m : List (κ × β)} {k : κ} {v : β}
    (hnd : (m.map Prod.fst).Nodup) (h : (k, v) ∈ m) : mapGet m k = some v := by
  induction m with
  | nil => cases h
  | cons hd t ih =>
    obtain ⟨k2, v2⟩ := hd
    rcases List.mem_cons.mp h with heq | ht
    · cases heq
      rw [mapGet, if_pos rfl]
    · have hk : k2 ≠ k := by
        intro hkk
        subst hkk
        have : k2 ∈ t.map Prod.fst := List.mem_map.mpr ⟨(k2, v), ht, rfl⟩
        simp only [List.map_cons, List.nodup_cons] at hnd
        exact hnd.1 this
      rw [mapGet, if_neg hk]
      exact ih (by simp only [List.map_cons, List.nodup_cons] at hnd; exact hnd.2) ht

theorem mapGet_isSome_iff_mem_keys {κ β : Type} [DecidableEq κ] (m : List (κ × β)) (k : κ) :
    (mapGet m k).isSome ↔ k ∈ m.map Prod.fst := by
  induction m with
  | nil => simp [mapGet]
  | cons hd t ih =>
    obtain ⟨k2, v2⟩ := hd
    by_cases hk : k2 = k
    · subst hk
      simp [mapGet]
    · have : ¬ k = k2 := fun h => hk h.symm
      simp [mapGet, hk, this, ih]

theorem mem_mapSet {κ β : Type} [DecidableEq κ] {m : List (κ × β)} {k : κ} {v : β}
    {e : κ × β} (h : e ∈ mapSet m k v) : e = (k, v) ∨ e ∈ m := by
  induction m with
  | nil => simpa [mapSet] using h
  | cons hd t ih =>
    obtain ⟨k2, v2⟩ := hd
    by_cases hk : k2 = k
    · subst hk
      rw [mapSet, if_pos rfl] at h
      rcases List.mem_cons.mp h with heq | ht
      · left; exact heq
      · right; exact List.mem_cons_of_mem _ ht
    · rw [mapSet, if_neg hk] at h
      rcases List.mem_cons.mp h with heq | ht
      · right; exact heq ▸ List.mem_cons_self _ _
      · rcases ih ht with heq | hmem
        · left; exact heq
        · right; exact List.mem_cons_of_mem _ hmem

namespace MemoryTrie

/-- Structural invariant of every reachable MemoryTrie node: the children
map has unique keys at every level (automatic for a JS Map). -/
inductive WFNode : TrieNode → Prop
  | mk : ∀ (children : List (Char × TrieNode)) (terminal : Bool) (weight : Nat),
      (children.map Prod.fst).Nodup →
      (∀ e ∈ children, WFNode e.2) →
      WFNode ⟨children, terminal, weight⟩

theorem WFNode.keys_nodup {node : TrieNode} (h : WFNode node) :
    (node.children.map Prod.fst).Nodup := by
  cases h with
  | mk children terminal weight hnd hall => exact hnd

theorem WFNode.child {node : TrieNode} (h : WFNode node) :
    ∀ e ∈ node.children, WFNode e.2 := by
  cases h with
  | mk children terminal weight hnd hall => exact hall

theorem wf_makeNode : WFNode makeNode := by
  constructor
  · simp
  · intro e he
    cases he

theorem wf_mapGet {node : TrieNode} {ch : Char} {n : TrieNode} (h : WFNode node)
    (hg : mapGet node.children ch = some n) : WFNode n :=
  h.child (ch, n) (mapGet_mem hg)

theorem wf_insertAux : ∀ (cs : List Char) (t : TrieNode) (tf : Bool), WFNode t →
    WFNode (insertAux t cs tf) := by
  intro cs
  induction cs with
  | nil =>
    intro t tf hwf
    obtain ⟨children, terminal, weight⟩ := t
    rw [insertAux]
    exact WFNode.mk _ _ _ hwf.keys_nodup hwf.child
  | cons c rest ih =>
    intro t tf hwf
    obtain ⟨children, terminal, weight⟩ := t
    rw [insertAux]
    refine WFNode.mk _ _ _ (mapSet_keys_nodup _ _ _ hwf.keys_nodup) ?_
    intro e he
    rcases mem_mapSet he with heq | hmem
    · subst heq
      refine ih _ tf ?_
      cases hg : mapGet children c with
      | none => simpa [hg] using wf_makeNode
      | some n =>
        have : WFNode n := hwf.child (c, n) (mapGet_mem hg)
        simpa [hg] using this
    · exact hwf.child e hmem

theorem wf_insert (t : TrieNode) (term : Term) (opts : Option TrieInsertOptions)
    (h : WFNode t) : WFNode (insert t term opts) :=
  wf_insertAux _ _ _ h

theorem wf_navigateAux : ∀ (cs : List Char) (t : TrieNode) (cur : TrieNode), WFNode t →
    navigateAux t cs = some cur → WFNode cur := by
  intro cs
  induction cs with
  | nil =>
    intro t cur hwf h
    rw [navigateAux] at h
    cases h
    exact hwf
  | cons c rest ih =>
    intro t cur hwf h
    rw [navigateAux] at h
    cases hg : mapGet t.children c with
    | none => rw [hg] at h; cases h
    | some next =>
      rw [hg] at h
      exact ih next cur (wf_mapGet hwf hg) h

end MemoryTrie

theorem pairwise_of_forall {α : Type} (R : α → α → Prop) (h : ∀ a b, R a b) (l : List α) :
    l.Pairwise R := by
  induction l with
  | nil => exact List.Pairwise.nil
  | cons a t ih => exact List.Pairwise.cons (fun b _ => h a b) ih

theorem pairwise_flatMap {α β : Type} (R : β → β → Prop) (f : α → List β) (es : List α)
    (hin : ∀ e ∈ es, (f e).Pairwise R)
    (hcross : es.Pairwise (fun e₁ e₂ => ∀ a ∈ f e₁, ∀ b ∈ f e₂, R a b)) :
    (es.flatMap f).Pairwise R := by
  induction es with
  | nil => simp
  | cons e t ih =>
    rw [List.flatMap_cons, List.pairwise_append]
    refine ⟨hin e (List.mem_cons_self _ _), ih (fun x hx => hin x (List.mem_cons_of_mem _ hx)) hcross.of_cons, ?_⟩
    intro a ha b hb
    rcases List.mem_flatMap.mp hb with ⟨e2, he2, hbe2⟩
    exact List.rel_of_pairwise_cons hcross he2 a ha b hbe2

theorem listLt_append_cons (p : List Char) (c : Char) (r : List Char) :
    List.Lex (fun a b : Char => a < b) p (p ++ c :: r) := by
  induction p with
  | nil => exact List.Lex.nil
  | cons a t ih => exact List.Lex.cons ih

theorem listLt_head (p : List Char) {c₁ c₂ : Char} (h : c₁ < c₂) (r₁ r₂ : List Char) :
    List.Lex (fun a b : Char => a < b) (p ++ c₁ :: r₁) (p ++ c₂ :: r₂) := by
  induction p with
  | nil => exact List.Lex.rel h
  | cons a t ih => exact List.Lex.cons ih

theorem string_lt_pfx_ext (pfx : String) (suffix : List Char) (c : Char) (t : List Char) :
    pfx ++ (⟨suffix⟩ : String) < pfx ++ (⟨(suffix ++ [c]) ++ t⟩ : String) := by
  rw [String.lt_iff_toList_lt]
  show List.Lex (fun a b : Char => a < b) ((pfx ++ (⟨suffix⟩ : String)).data)
    ((pfx ++ (⟨(suffix ++ [c]) ++ t⟩ : String)).data)
  rw [String.data_append, String.data_append]
  show List.Lex (fun a b : Char => a < b) (pfx.data ++ suffix) (pfx.data ++ ((suffix ++ [c]) ++ t))
  have harr : pfx.data ++ ((suffix ++ [c]) ++ t) = (pfx.data ++ suffix) ++ c :: t := by
    simp [List.append_assoc]
  rw [harr]
  exact listLt_append_cons _ c t

theorem string_lt_head_ext (pfx : String) (suffix : List Char) {c₁ c₂ : Char} (h : c₁ < c₂)
    (t₁ t₂ : List Char) :
    pfx ++ (⟨(suffix ++ [c₁]) ++ t₁⟩ : String) < pfx ++ (⟨(suffix ++ [c₂]) ++ t₂⟩ : String) := by
  rw [String.lt_iff_toList_lt]
  show List.Lex (fun a b : Char => a < b) ((pfx ++ (⟨(suffix ++ [c₁]) ++ t₁⟩ : String)).data)
    ((pfx ++ (⟨(suffix ++ [c₂]) ++ t₂⟩ : String)).data)
  rw [String.data_append, String.data_append]
  show List.Lex (fun a b : Char => a < b) (pfx.data ++ ((suffix ++ [c₁]) ++ t₁))
    (pfx.data ++ ((suffix ++ [c₂]) ++ t₂))
  have h1 : pfx.data ++ ((suffix ++ [c₁]) ++ t₁) = (pfx.data ++ suffix) ++ c₁ :: t₁ := by
    simp [List.append_assoc]
  have h2 : pfx.data ++ ((suffix ++ [c₂]) ++ t₂) = (pfx.data ++ suffix) ++ c₂ :: t₂ := by
    simp [List.append_assoc]
  rw [h1, h2]
  exact listLt_head _ h t₁ t₂

namespace MemoryTrie

theorem sortedChildren_mem_children {node : TrieNode} {e : Char × TrieNode}
    (h : e ∈ sortedChildren node) : e ∈ node.children :=
  (List.perm_insertionSort _ _).mem_iff.mp h

theorem sortedChildren_keys_lt (node : TrieNode) (hwf : WFNode node) :
    (sortedChildren node).Pairwise (fun e₁ e₂ => e₁.1 < e₂.1) := by
  have hle : (sortedChildren node).Pairwise (fun e₁ e₂ : Char × TrieNode => e₁.1 ≤ e₂.1) := by
    refine pairwise_insertionSort _ ?_ _ ?_
    · intro a b c hab hbc
      exact le_trans hab hbc
    · exact pairwise_of_forall _ (fun (a b : Char × TrieNode) => le_total a.1 b.1) _
  have hnd : ((sortedChildren node).map Prod.fst).Nodup :=
    (((List.perm_insertionSort _ _).map Prod.fst).nodup_iff).mpr hwf.keys_nodup
  have hne : (sortedChildren node).Pairwise (fun e₁ e₂ : Char × TrieNode => e₁.1 ≠ e₂.1) :=
    (List.pairwise_map).mp hnd
  exact (hle.and hne).imp (fun h => lt_of_le_of_ne h.1 h.2)

theorem lexEntries_mem_spec (pfx : String) :
    ∀ N node suffix r, nodeSize node ≤ N → WFNode node → r ∈ lexEntries pfx suffix node →
      ∃ tail, r.term = pfx ++ (⟨suffix ++ tail⟩ : String) ∧ hasAux node tail = true := by
  intro N
  induction N with
  | zero =>
    intro node suffix r hsz
    have := nodeSize_pos node
    omega
  | succ N ih =>
    intro node suffix r hsz hwf hr
    rw [lexEntries_eq] at hr
    rcases List.mem_append.mp hr with hhead | htail
    · by_cases hterm : node.terminal = true
      · rw [if_pos hterm] at hhead
        rcases List.mem_singleton.mp hhead with rfl
        refine ⟨[], ?_, ?_⟩
        · simp
        · rw [hasAux]
          exact hterm
      · rw [if_neg hterm] at hhead
        cases hhead
    · rcases List.mem_flatMap.mp htail with ⟨e, he, hre⟩
      obtain ⟨c, nd⟩ := e
      have hlt2 : nodeSize nd < nodeSize node := nodeSize_lt_of_mem_sorted he
      have hsz2 : nodeSize nd ≤ N := by omega
      have hwf2 : WFNode nd := hwf.child (c, nd) (sortedChildren_mem_children he)
      obtain ⟨tail2, hterm2, hhas2⟩ := ih nd (suffix ++ [c]) r hsz2 hwf2 hre
      refine ⟨c :: tail2, ?_, ?_⟩
      · rw [hterm2]
        congr 1
        simp
      · rw [hasAux]
        rw [mapGet_of_mem_nodup hwf.keys_nodup (sortedChildren_mem_children he)]
        exact hhas2

theorem lexEntries_sorted (pfx : String) :
    ∀ N node suffix, nodeSize node ≤ N → WFNode node →
      (lexEntries pfx suffix node).Pairwise (fun a b => a.term < b.term) := by
  intro N
  induction N with
  | zero =>
    intro node suffix hsz
    have := nodeSize_pos node
    omega
  | succ N ih =>
    intro node suffix hsz hwf
    rw [lexEntries_eq, List.pairwise_append]
    refine ⟨?_, ?_, ?_⟩
    · by_cases hterm : node.terminal = true
      · rw [if_pos hterm]
        simp
      · rw [if_neg hterm]
        simp
    · refine pairwise_flatMap _ _ _ ?_ ?_
      · intro e he
        have hsz2 : nodeSize e.2 ≤ N := by
          have := nodeSize_lt_of_mem_sorted he
          omega
        exact ih e.2 (suffix ++ [e.1]) hsz2 (hwf.child e (sortedChildren_mem_children he))
      · have hkeys := sortedChildren_keys_lt node hwf
        refine List.Pairwise.imp_of_mem ?_ hkeys
        intro e₁ e₂ he₁ he₂ hlt a ha b hb
        have hsz1 : nodeSize e₁.2 ≤ N := by
          have := nodeSize_lt_of_mem_sorted he₁
          omega
        have hsz2 : nodeSize e₂.2 ≤ N := by
          have := nodeSize_lt_of_mem_sorted he₂
          omega
        obtain ⟨t₁, ht₁, _⟩ := lexEntries_mem_spec pfx N e₁.2 (suffix ++ [e₁.1]) a hsz1
          (hwf.child e₁ (sortedChildren_mem_children he₁)) ha
        obtain ⟨t₂, ht₂, _⟩ := lexEntries_mem_spec pfx N e₂.2 (suffix ++ [e₂.1]) b hsz2
          (hwf.child e₂ (sortedChildren_mem_children he₂)) hb
        rw [ht₁, ht₂]
        exact string_lt_head_ext pfx suffix hlt t₁ t₂
    · intro a ha b hb
      by_cases hterm : node.terminal = true
      · rw [if_pos hterm] at ha
        rcases List.mem_singleton.mp ha with rfl
        rcases List.mem_flatMap.mp hb with ⟨e, he, hbe⟩
        have hsz2 : nodeSize e.2 ≤ N := by
          have := nodeSize_lt_of_mem_sorted he
          omega
        obtain ⟨t₂, ht₂, _⟩ := lexEntries_mem_spec pfx N e.2 (suffix ++ [e.1]) b hsz2
          (hwf.child e (sortedChildren_mem_children he)) hbe
        rw [ht₂]
        exact string_lt_pfx_ext pfx suffix e.1 t₂
      · rw [if_neg hterm] at ha
        cases ha

theorem trieCmp_le_iff (a b : TriePrefixResult) :
    cmpLe trieCmp a b ↔ (b.weight.getD 0 < a.weight.getD 0) ∨
      (a.weight.getD 0 = b.weight.getD 0 ∧ a.term < b.term) := by
  unfold cmpLe trieCmp
  by_cases hw : ((b.weight.getD 0 : ℚ) - (a.weight.getD 0 : ℚ)) ≠ 0
  · rw [if_pos hw]
    have hne : b.weight.getD 0 ≠ a.weight.getD 0 := by
      intro h
      exact hw (by rw [h]; ring)
    constructor
    · intro h
      left
      have hq : (b.weight.getD 0 : ℚ) ≤ (a.weight.getD 0 : ℚ) := by linarith
      have hle : b.weight.getD 0 ≤ a.weight.getD 0 := by exact_mod_cast hq
      omega
    · intro h
      rcases h with h | ⟨h, _⟩
      · have : (b.weight.getD 0 : ℚ) < (a.weight.getD 0 : ℚ) := by exact_mod_cast h
        linarith
      · exact absurd h.symm hne
  · rw [if_neg hw]
    push_neg at hw
    have heq : a.weight.getD 0 = b.weight.getD 0 := by
      have : (b.weight.getD 0 : ℚ) = (a.weight.getD 0 : ℚ) := by linarith
      exact (Nat.cast_injective this).symm
    by_cases ht : a.term < b.term
    · rw [if_pos ht]
      constructor
      · intro _
        right
        exact ⟨heq, ht⟩
      · intro _
        norm_num
    · rw [if_neg ht]
      constructor
      · intro h
        norm_num at h
      · intro h
        rcases h with h | ⟨_, h⟩
        · omega
        · exact absurd h ht

theorem trieCmp_trans : ∀ a b c, cmpLe trieCmp a b → cmpLe trieCmp b c → cmpLe trieCmp a c := by
  intro a b c hab hbc
  rw [trieCmp_le_iff] at hab hbc ⊢
  rcases hab with h1 | ⟨h1, h1t⟩ <;> rcases hbc with h2 | ⟨h2, h2t⟩
  · left; omega
  · left; omega
  · left; omega
  · right
    exact ⟨h1.trans h2, h1t.trans h2t⟩

/-- Equality of trie nodes up to the iteration order of the children maps:
same terminal flag, same weight, same key sets, equivalent subtrees. -/
inductive NEquiv : TrieNode → TrieNode → Prop
  | mk : ∀ (c1 c2 : List (Char × TrieNode)) (terminal : Bool) (weight : Nat),
      (c1.map Prod.fst).Perm (c2.map Prod.fst) →
      (∀ ch n1 n2, mapGet c1 ch = some n1 → mapGet c2 ch = some n2 → NEquiv n1 n2) →
      NEquiv ⟨c1, terminal, weight⟩ ⟨c2, terminal, weight⟩

theorem nequiv_refl : ∀ N node, nodeSize node ≤ N → NEquiv node node := by
  intro N
  induction N with
  | zero =>
    intro node hsz
    have := nodeSize_pos node
    omega
  | succ N ih =>
    intro node hsz
    obtain ⟨children, terminal, weight⟩ := node
    refine NEquiv.mk _ _ _ _ (List.Perm.refl _) ?_
    intro ch n1 n2 h1 h2
    rw [h1] at h2
    cases h2
    have hmem : (ch, n1) ∈ children := mapGet_mem h1
    have hle : nodeSize n1 ≤ childrenSize children := nodeSize_le_of_mem hmem
    refine ih n1 ?_
    simp only [nodeSize] at hsz
    omega

theorem navigateAux_nequiv : ∀ (cs : List Char) (n1 n2 : TrieNode), NEquiv n1 n2 →
    (navigateAux n1 cs = none ∧ navigateAux n2 cs = none) ∨
    (∃ m1 m2, navigateAux n1 cs = some m1 ∧ navigateAux n2 cs = some m2 ∧ NEquiv m1 m2) := by
  intro cs
  induction cs with
  | nil =>
    intro n1 n2 h
    right
    exact ⟨n1, n2, rfl, rfl, h⟩
  | cons c rest ih =>
    intro n1 n2 h
    cases h with
    | mk c1 c2 terminal weight hperm hgets =>
      rw [navigateAux, navigateAux]
      simp only [TrieNode.children]
      cases hg1 : mapGet c1 c with
      | none =>
        have hnk : ¬ c ∈ c1.map Prod.fst := by
          rw [(mapGet_isSome_iff_mem_keys c1 c).symm, hg1]
          simp
        have hnk2 : ¬ c ∈ c2.map Prod.fst := fun hmem => hnk (hperm.mem_iff.mpr hmem)
        have hg2 : mapGet c2 c = none := by
          cases hg2 : mapGet c2 c with
          | none => rfl
          | some v =>
            exact absurd ((mapGet_isSome_iff_mem_keys c2 c).mp (by rw [hg2]; rfl)) hnk2
        rw [hg2]
        left
        exact ⟨rfl, rfl⟩
      | some k1 =>
        have hk : c ∈ c2.map Prod.fst :=
          hperm.mem_iff.mp ((mapGet_isSome_iff_mem_keys c1 c).mp (by rw [hg1]; rfl))
        cases hg2 : mapGet c2 c with
        | none =>
          exact absurd ((mapGet_isSome_iff_mem_keys c2 c).mpr hk) (by rw [hg2]; simp)
        | some k2 =>
          exact ih k1 k2 (hgets c k1 k2 hg1 hg2)

theorem flatMap_congr_keyed {γ : Type} (f g : (Char × TrieNode) → List γ) :
    ∀ l1 l2 : List (Char × TrieNode), l1.map Prod.fst = l2.map Prod.fst →
    (∀ e1 ∈ l1, ∀ e2 ∈ l2, e1.1 = e2.1 → f e1 = g e2) →
    l1.flatMap f = l2.flatMap g := by
  intro l1
  induction l1 with
  | nil =>
    intro l2 hk _
    have : l2 = [] := by
      cases l2 with
      | nil => rfl
      | cons e t => cases hk
    subst this
    rfl
  | cons e1 t1 ih =>
    intro l2 hk hfg
    cases l2 with
    | nil => cases hk
    | cons e2 t2 =>
      simp only [List.map_cons, List.cons.injEq] at hk
      rw [List.flatMap_cons, List.flatMap_cons]
      rw [hfg e1 (List.mem_cons_self _ _) e2 (List.mem_cons_self _ _) hk.1]
      rw [ih t2 hk.2 (fun a ha b hb => hfg a (List.mem_cons_of_mem _ ha) b (List.mem_cons_of_mem _ hb))]

theorem lexEntries_nequiv (pfx : String) :
    ∀ N n1 n2 suffix, nodeSize n1 ≤ N → WFNode n1 → WFNode n2 → NEquiv n1 n2 →
      lexEntries pfx suffix n1 = lexEntries pfx suffix n2 := by
  intro N
  induction N with
  | zero =>
    intro n1 n2 suffix hsz
    have := nodeSize_pos n1
    omega
  | succ N ih =>
    intro n1 n2 suffix hsz hwf1 hwf2 h
    cases h with
    | mk c1 c2 terminal weight hperm hgets =>
      rw [lexEntries_eq, lexEntries_eq]
      congr 1
      have hsorted1 := sortedChildren_keys_lt ⟨c1, terminal, weight⟩ hwf1
      have hsorted2 := sortedChildren_keys_lt ⟨c2, terminal, weight⟩ hwf2
      have hkeys : (sortedChildren ⟨c1, terminal, weight⟩).map Prod.fst =
          (sortedChildren ⟨c2, terminal, weight⟩).map Prod.fst := by
        have hp : ((sortedChildren ⟨c1, terminal, weight⟩).map Prod.fst).Perm
            ((sortedChildren ⟨c2, terminal, weight⟩).map Prod.fst) := by
          refine List.Perm.trans ((List.perm_insertionSort _ _).map Prod.fst) ?_
          refine List.Perm.trans ?_ (((List.perm_insertionSort _ _).map Prod.fst).symm)
          exact hperm
        have hs1 : List.Sorted (fun a b : Char => a ≤ b)
            ((sortedChildren ⟨c1, terminal, weight⟩).map Prod.fst) :=
          (List.pairwise_map).mpr (hsorted1.imp (fun h => le_of_lt h))
        have hs2 : List.Sorted (fun a b : Char => a ≤ b)
            ((sortedChildren ⟨c2, terminal, weight⟩).map Prod.fst) :=
          (List.pairwise_map).mpr (hsorted2.imp (fun h => le_of_lt h))
        exact List.eq_of_perm_of_sorted hp hs1 hs2
      refine flatMap_congr_keyed _ _ _ _ hkeys ?_
      intro e1 he1 e2 he2 hkey
      have hm1 : e1 ∈ c1 := sortedChildren_mem_children he1
      have hm2 : e2 ∈ c2 := sortedChildren_mem_children he2
      have hg1 : mapGet c1 e1.1 = some e1.2 := by
        refine mapGet_of_mem_nodup hwf1.keys_nodup ?_
        simpa using hm1
      have hg2 : mapGet c2 e2.1 = some e2.2 := by
        refine mapGet_of_mem_nodup hwf2.keys_nodup ?_
        simpa using hm2
      rw [hkey] at hg1
      have hsubequiv := hgets e2.1 e1.2 e2.2 hg1 hg2
      have hsz1 : nodeSize e1.2 ≤ N := by
        have := nodeSize_lt_of_mem_sorted he1
        omega
      rw [hkey]
      exact ih e1.2 e2.2 (suffix ++ [e2.1]) hsz1 (hwf1.child e1 hm1) (hwf2.child e2 hm2) hsubequiv

theorem complete_nequiv (t1 t2 : TrieNode) (p : String) (k : Nat)
    (hwf1 : WFNode t1) (hwf2 : WFNode t2) (h : NEquiv t1 t2) :
    complete t1 p k = complete t2 p k := by
  rcases navigateAux_nequiv p.data t1 t2 h with ⟨h1, h2⟩ | ⟨m1, m2, h1, h2, hm⟩
  · unfold complete
    rw [h1, h2]
  · rw [complete_eq t1 p k m1 h1, complete_eq t2 p k m2 h2]
    rw [lexEntries_nequiv p (nodeSize m1) m1 m2 [] (le_refl _)
      (wf_navigateAux p.data t1 m1 hwf1 h1) (wf_navigateAux p.data t2 m2 hwf2 h2) hm]

end MemoryTrie

/-! Top-K selector (ArrayHeap and MinHeapTopKSelector, src/core/impl/minHeapTopK.ts). -/

/-- Bubble-up loop of ArrayHeap.push.  The fuel argument bounds the loop
structurally; any fuel of at least the start index is enough, since the
index strictly decreases towards the root. -/
def bubbleUp {α : Type} (less : α → α → Bool) : Nat → List α → Nat → List α
  | 0, a, _ => a
  | fuel + 1, a, i =>
    if i = 0 then a
    else
      match a[i]?, a[(i - 1) / 2]? with
      | some ai, some ap =>
        if less ai ap then bubbleUp less fuel ((a.set i ap).set ((i - 1) / 2) ai) ((i - 1) / 2)
        else a
      | _, _ => a

/-- ArrayHeap.push: append, then bubble up from the last slot. -/
def hpush {α : Type} (less : α → α → Bool) (a : List α) (x : α) : List α :=
  bubbleUp less a.length (a ++ [x]) a.length

/-- Smallest-of-parent-and-children selection inside the sift-down loop of
ArrayHeap (out-of-range children never count: a[j] exists iff j is below
the array length). -/
def sdSmallest {α : Type} (less : α → α → Bool) (a : List α) (i : Nat) (ai : α) : Nat :=
  match a[2*i+1]? with
  | some al =>
    if less al ai then
      match a[2*i+2]? with
      | some ar => if less ar al then 2*i+2 else 2*i+1
      | none => 2*i+1
    else
      match a[2*i+2]? with
      | some ar => if less ar ai then 2*i+2 else i
      | none => i
  | none =>
    match a[2*i+2]? with
    | some ar => if less ar ai then 2*i+2 else i
    | none => i

/-- Sift-down loop of ArrayHeap.pop.  The fuel argument bounds the loop
structurally; any fuel of at least the array length is enough, since the
index strictly increases. -/
def siftDown {α : Type} (less : α → α → Bool) : Nat → List α → Nat → List α
  | 0, a, _ => a
  | fuel + 1, a, i =>
    match a[i]? with
    | none => a
    | some ai =>
      if sdSmallest less a i ai = i then a
      else
        match a[sdSmallest less a i ai]? with
        | none => a
        | some asm =>
          siftDown less fuel ((a.set i asm).set (sdSmallest less a i ai) ai) (sdSmallest less a i ai)

/-- ArrayHeap.pop: return the root, move the last element to the root and
sift it down. -/
def hpop {α : Type} (less : α → α → Bool) (a : List α) : Option α × List α :=
  match a with
  | [] => (none, [])
  | x :: _ =>
    (a[0]?,
      if (a.dropLast).length ≠ 0 then
        siftDown less (a.dropLast).length ((a.dropLast).set 0 (a.getLast?.getD x)) 0
      else a.dropLast)

/-- Formalisation of a consistent total JavaScript comparator: the sign
flips when the arguments swap, and the induced at-most relation is
transitive. -/
def IsTotalCmp {α : Type} (cmp : α → α → ℚ) : Prop :=
  (∀ a b, cmp a b < 0 ↔ cmp b a > 0) ∧ (∀ a b c, cmp a b ≤ 0 → cmp b c ≤ 0 → cmp a c ≤ 0)

namespace MinHeapTopKSelector

/-- Body of the scanning loop of MinHeapTopKSelector.topK: while the heap
holds fewer than k items push the new item, otherwise replace the root
(the worst of the current best) when the new item compares strictly
better. -/
def topKStep {α : Type} (comparator : α → α → ℚ) (k : Int) (h : List α) (item : α) : List α :=
  if (h.length : Int) < k then hpush (fun a b => decide (comparator a b > 0)) h item
  else
    match h[0]? with
    | some worst =>
      if comparator item worst < 0 then
        hpush (fun a b => decide (comparator a b > 0))
          (hpop (fun a b => decide (comparator a b > 0)) h).2 item
      else h
    | none => h

/-- MinHeapTopKSelector.topK: scan the items through a bounded min-heap of
the k best (worst-of-the-best at the root), then drain and sort with the
user comparator. -/
def topK {α : Type} (items : List α) (k : Int) (comparator : α → α → ℚ) : List α :=
  if k ≤ 0 then []
  else jsSort comparator (items.foldl (topKStep comparator k) [])

end MinHeapTopKSelector

theorem single_set_perm {α : Type} :
    ∀ (t : List α) (j : Nat) (aj ai : α), t[j]? = some aj →
      (aj :: t.set j ai).Perm (ai :: t) := by
  intro t
  induction t with
  | nil => intro j aj ai h; cases h
  | cons y t ih =>
    intro j aj ai h
    match j with
    | 0 =>
      simp only [List.getElem?_cons_zero, Option.some.injEq] at h
      subst h
      simp only [List.set_cons_zero]
      exact List.Perm.swap _ _ _
    | jj + 1 =>
      simp only [List.getElem?_cons_succ] at h
      rw [List.set_cons_succ]
      have h1 : (aj :: y :: t.set jj ai).Perm (y :: aj :: t.set jj ai) := List.Perm.swap _ _ _
      have h2 : (y :: aj :: t.set jj ai).Perm (y :: ai :: t) := List.Perm.cons y (ih jj aj ai h)
      have h3 : (y :: ai :: t).Perm (ai :: y :: t) := List.Perm.swap _ _ _
      exact (h1.trans h2).trans h3

theorem set_set_perm {α : Type} :
    ∀ (a : List α) (i j : Nat) (ai aj : α), i ≠ j → a[i]? = some ai → a[j]? = some aj →
      ((a.set i aj).set j ai).Perm a := by
  intro a
  induction a with
  | nil => intro i j ai aj hij hi hj; cases hi
  | cons x t ih =>
    intro i j ai aj hij hi hj
    match i, j with
    | 0, 0 => exact absurd rfl hij
    | 0, jj + 1 =>
      simp only [List.getElem?_cons_zero, Option.some.injEq] at hi
      subst hi
      simp only [List.getElem?_cons_succ] at hj
      rw [List.set_cons_zero, List.set_cons_succ]
      exact single_set_perm t jj aj x hj
    | ii + 1, 0 =>
      simp only [List.getElem?_cons_zero, Option.some.injEq] at hj
      subst hj
      simp only [List.getElem?_cons_succ] at hi
      rw [List.set_cons_succ, List.set_cons_zero]
      exact single_set_perm t ii ai x hi
    | ii + 1, jj + 1 =>
      simp only [List.getElem?_cons_succ] at hi hj
      rw [List.set_cons_succ, List.set_cons_succ]
      exact List.Perm.cons x (ih ii jj ai aj (by omega) hi hj)

theorem bubbleUp_length {α : Type} (less : α → α → Bool) :
    ∀ fuel (a : List α) i, (bubbleUp less fuel a i).length = a.length := by
  intro fuel
  induction fuel with
  | zero => intro a i; rfl
  | succ n ih =>
    intro a i
    rw [bubbleUp]
    by_cases h0 : i = 0
    · rw [if_pos h0]
    · rw [if_neg h0]
      split
      · split
        · rw [ih]
          simp
        · rfl
      · rfl

theorem bubbleUp_perm {α : Type} (less : α → α → Bool) :
    ∀ fuel (a : List α) i, (bubbleUp less fuel a i).Perm a := by
  intro fuel
  induction fuel with
  | zero => intro a i; exact List.Perm.refl _
  | succ n ih =>
    intro a i
    rw [bubbleUp]
    by_cases h0 : i = 0
    · rw [if_pos h0]
    · rw [if_neg h0]
      split
      next ai ap hai hap =>
        split
        next hl =>
          refine (ih _ _).trans ?_
          exact set_set_perm a i ((i-1)/2) ai ap (by omega) hai hap
        next hl => exact List.Perm.refl _
      next => exact List.Perm.refl _

theorem siftDown_length {α : Type} (less : α → α → Bool) :
    ∀ fuel (a : List α) i, (siftDown less fuel a i).length = a.length := by
  intro fuel
  induction fuel with
  | zero => intro a i; rfl
  | succ n ih =>
    intro a i
    rw [siftDown]
    split
    · rfl
    next ai hai =>
      by_cases hsm : sdSmallest less a i ai = i
      · rw [if_pos hsm]
      · rw [if_neg hsm]
        split
        · rfl
        next asm hs =>
          rw [ih]
          simp

theorem siftDown_perm {α : Type} (less : α → α → Bool) :
    ∀ fuel (a : List α) i, (siftDown less fuel a i).Perm a := by
  intro fuel
  induction fuel with
  | zero => intro a i; exact List.Perm.refl _
  | succ n ih =>
    intro a i
    rw [siftDown]
    split
    · exact List.Perm.refl _
    next ai hai =>
      by_cases hsm : sdSmallest less a i ai = i
      · rw [if_pos hsm]
      · rw [if_neg hsm]
        split
        · exact List.Perm.refl _
        next asm hs =>
          refine (ih _ _).trans ?_
          exact set_set_perm a i (sdSmallest less a i ai) ai asm (fun h => hsm h.symm) hai hs

theorem hpush_perm {α : Type} (less : α → α → Bool) (a : List α) (x : α) :
    (hpush less a x).Perm (x :: a) := by
  unfold hpush
  exact (bubbleUp_perm less a.length (a ++ [x]) a.length).trans (List.perm_append_singleton _ _)

theorem hpush_length {α : Type} (less : α → α → Bool) (a : List α) (x : α) :
    (hpush less a x).length = a.length + 1 := by
  unfold hpush
  rw [bubbleUp_length]
  simp

theorem hpop_spec {α : Type} (less : α → α → Bool) (x : α) (xs : List α) :
    (hpop less (x :: xs)).1 = some x ∧ ((hpop less (x :: xs)).2).Perm xs := by
  constructor
  · simp [hpop]
  · show (if ((x :: xs).dropLast).length ≠ 0 then _ else (x :: xs).dropLast).Perm xs
    match hxs : xs with
    | [] => simp
    | y :: ys =>
      have hne : (((x :: y :: ys)).dropLast).length ≠ 0 := by
        simp [List.dropLast]
      rw [if_pos hne]
      refine (siftDown_perm _ _ _ _).trans ?_
      have hlast : (x :: y :: ys).getLast?.getD x = (y :: ys).getLast (by simp) := by
        rw [List.getLast?_eq_getLast (x :: y :: ys) (by simp)]
        simp [List.getLast_cons]
      have hdl : (x :: y :: ys).dropLast = x :: (y :: ys).dropLast := rfl
      rw [hlast, hdl, List.set_cons_zero]
      have hsplit : y :: ys = (y :: ys).dropLast ++ [(y :: ys).getLast (by simp)] :=
        (List.dropLast_append_getLast (by simp)).symm
      conv_rhs => rw [hsplit]
      exact (List.perm_append_singleton _ _).symm

/-- Binary-heap shape invariant of ArrayHeap: no element is less than its
parent. -/
def HeapProp {α : Type} (less : α → α → Bool) (a : List α) : Prop :=
  ∀ j x y, 1 ≤ j → a[j]? = some x → a[(j-1)/2]? = some y → less x y = false

/-- Facts about the strict Boolean order used by the heap, derived from the
comparator contract. -/
structure LessOK {α : Type} (less : α → α → Bool) : Prop where
  asym : ∀ x y, less x y = true → less y x = false
  ltrans : ∀ x y z, less x y = true → less y z = true → less x z = true
  nltrans : ∀ x y z, less x y = false → less y z = false → less x z = false

theorem lessOK_of_totalCmp {α : Type} (cmp : α → α → ℚ) (hc : IsTotalCmp cmp) :
    LessOK (fun a b => decide (cmp a b > 0)) := by
  obtain ⟨hflip, htrans⟩ := hc
  refine ⟨?_, ?_, ?_⟩
  · intro x y hxy
    simp only [decide_eq_true_eq] at hxy
    simp only [decide_eq_false_iff_not, not_lt]
    have := (hflip y x).mpr hxy
    linarith
  · intro x y z hxy hyz
    simp only [decide_eq_true_eq] at hxy hyz
    simp only [decide_eq_true_eq]
    by_contra hle
    push_neg at hle
    have h1 : cmp y x < 0 := (hflip y x).mpr hxy
    have := htrans y x z (le_of_lt h1) hle
    linarith
  · intro x y z hxy hyz
    simp only [decide_eq_false_iff_not, not_lt] at hxy hyz
    simp only [decide_eq_false_iff_not, not_lt]
    exact htrans x y z hxy hyz

theorem lessOK_irrefl {α : Type} {less : α → α → Bool} (h : LessOK less) (x : α) :
    less x x = false := by
  by_cases hx : less x x = true
  · have := h.asym x x hx
    rw [this] at hx
    cases hx
  · simpa using hx

theorem getElem?_set_set {α : Type} (a : List α) (i p : Nat) (ai ap : α) (hip : i ≠ p)
    (hi : i < a.length) (hp : p < a.length) :
    ∀ m, ((a.set i ap).set p ai)[m]? =
      if m = p then some ai else if m = i then some ap else a[m]? := by
  intro m
  simp only [List.getElem?_set, List.length_set]
  by_cases hmp : p = m
  · subst hmp
    simp [hp]
  · have hmp2 : ¬ m = p := fun h => hmp h.symm
    by_cases hmi : i = m
    · subst hmi
      simp [hmp, hmp2, hi]
    · have hmi2 : ¬ m = i := fun h => hmi h.symm
      simp [hmp, hmp2, hmi, hmi2]

/-- Invariant carried by the bubble-up loop: every parent edge holds except
possibly the one out of position i, and the children of i satisfy the
grandparent property. -/
def BUInv {α : Type} (less : α → α → Bool) (a : List α) (i : Nat) : Prop :=
  (∀ j x y, 1 ≤ j → j ≠ i → a[j]? = some x → a[(j-1)/2]? = some y → less x y = false) ∧
  (1 ≤ i → ∀ j x y, 1 ≤ j → (j-1)/2 = i → a[j]? = some x → a[(i-1)/2]? = some y →
    less x y = false)

theorem bubbleUp_heap {α : Type} {less : α → α → Bool} (hL : LessOK less) :
    ∀ fuel (a : List α) i, i ≤ fuel → i < a.length → BUInv less a i →
      HeapProp less (bubbleUp less fuel a i) := by
  intro fuel
  induction fuel with
  | zero =>
    intro a i hif hil hinv
    have hi0 : i = 0 := by omega
    subst hi0
    intro j x y hj hx hy
    exact hinv.1 j x y hj (by omega) hx hy
  | succ n ih =>
    intro a i hif hil hinv
    rw [bubbleUp]
    by_cases h0 : i = 0
    · rw [if_pos h0]
      subst h0
      intro j x y hj hx hy
      exact hinv.1 j x y hj (by omega) hx hy
    · rw [if_neg h0]
      cases hai : a[i]? with
      | none =>
        exfalso
        have := List.getElem?_eq_some_iff.mpr ⟨hil, rfl⟩
        rw [hai] at this
        cases this
      | some ai =>
        cases hap : a[(i-1)/2]? with
        | none =>
          exfalso
          have hplt : (i-1)/2 < a.length := by omega
          have := List.getElem?_eq_some_iff.mpr ⟨hplt, rfl⟩
          rw [hap] at this
          cases this
        | some ap =>
          have hplt : (i-1)/2 < a.length := by omega
          have hip : i ≠ (i-1)/2 := by omega
          have hg := getElem?_set_set a i ((i-1)/2) ai ap hip hil hplt
          show HeapProp less (if less ai ap = true then
              bubbleUp less n ((a.set i ap).set ((i-1)/2) ai) ((i-1)/2) else a)
          by_cases hl : less ai ap = true
          · rw [if_pos hl]
            refine ih _ ((i-1)/2) (by omega) (by rw [List.length_set, List.length_set]; omega) ⟨?_, ?_⟩
            · intro j x y hj hjp hx hy
              rw [hg j] at hx
              rw [hg ((j-1)/2)] at hy
              by_cases hji : j = i
              · subst hji
                rw [if_neg hjp, if_pos rfl] at hx
                rw [if_pos rfl] at hy
                cases hx
                cases hy
                exact hL.asym _ _ hl
              · by_cases hpji : (j-1)/2 = i
                · have hjne : j ≠ (i-1)/2 := by omega
                  rw [if_neg hjp, if_neg hji] at hx
                  rw [hpji, if_neg hip, if_pos rfl] at hy
                  cases hy
                  exact hinv.2 (by omega) j x ap hj hpji hx hap
                · by_cases hpjp : (j-1)/2 = (i-1)/2
                  · rw [if_neg hjp, if_neg hji] at hx
                    rw [hpjp, if_pos rfl] at hy
                    cases hy
                    by_contra hcon
                    rw [Bool.not_eq_false] at hcon
                    have h2 : less x ap = true := hL.ltrans _ _ _ hcon hl
                    have h3 : less x ap = false := by
                      refine hinv.1 j x ap hj hji hx ?_
                      rw [hpjp]
                      exact hap
                    rw [h2] at h3
                    cases h3
                  · rw [if_neg hjp, if_neg hji] at hx
                    rw [if_neg hpjp, if_neg hpji] at hy
                    exact hinv.1 j x y hj hji hx hy
            · intro hp1 j x y hj hpjp hx hy
              rw [hg j] at hx
              rw [hg (((i-1)/2-1)/2)] at hy
              have hgp1 : ((i-1)/2-1)/2 ≠ (i-1)/2 := by omega
              have hgp2 : ((i-1)/2-1)/2 ≠ i := by omega
              rw [if_neg hgp1, if_neg hgp2] at hy
              by_cases hji : j = i
              · have hjne : j ≠ (i-1)/2 := by omega
                rw [if_neg hjne, if_pos hji] at hx
                cases hx
                exact hinv.1 ((i-1)/2) ap y hp1 (by omega) hap hy
              · have hjp : j ≠ (i-1)/2 := by omega
                rw [if_neg hjp, if_neg hji] at hx
                have h1 : less x ap = false := by
                  refine hinv.1 j x ap hj hji hx ?_
                  rw [hpjp]
                  exact hap
                have h2 : less ap y = false :=
                  hinv.1 ((i-1)/2) ap y hp1 (by omega) hap hy
                exact hL.nltrans _ _ _ h1 h2
          · rw [if_neg hl]
            intro j x y hj hx hy
            by_cases hji : j = i
            · subst hji
              rw [hai] at hx
              rw [hap] at hy
              cases hx
              cases hy
              simpa using hl
            · exact hinv.1 j x y hj hji hx hy

theorem hpush_heap {α : Type} {less : α → α → Bool} (hL : LessOK less) (a : List α) (x : α)
    (hheap : HeapProp less a) : HeapProp less (hpush less a x) := by
  unfold hpush
  refine bubbleUp_heap hL a.length (a ++ [x]) a.length (le_refl _) (by simp) ⟨?_, ?_⟩
  · intro j u v hj hji hu hv
    have hjlt : j < a.length := by
      have hjle : j < (a ++ [x]).length := by
        by_contra hcon
        push_neg at hcon
        have : (a ++ [x])[j]? = none := by
          rw [List.getElem?_eq_none_iff]
          omega
        rw [this] at hu
        cases hu
      simp only [List.length_append, List.length_singleton] at hjle
      omega
    rw [List.getElem?_append_left hjlt] at hu
    rw [List.getElem?_append_left (by omega)] at hv
    exact hheap j u v hj hu hv
  · intro hi1 j u v hj hpj hu hv
    exfalso
    have hjlt : j < (a ++ [x]).length := by
      by_contra hcon
      push_neg at hcon
      have : (a ++ [x])[j]? = none := by
        rw [List.getElem?_eq_none_iff]
        omega
      rw [this] at hu
      cases hu
    simp only [List.length_append, List.length_singleton] at hjlt
    omega

theorem sdSmallest_spec {α : Type} (less : α → α → Bool) (a : List α) (i : Nat) (ai : α) :
    (sdSmallest less a i ai = i ∧
      (∀ al, a[2*i+1]? = some al → less al ai = false) ∧
      (∀ ar, a[2*i+2]? = some ar → less ar ai = false)) ∨
    (sdSmallest less a i ai = 2*i+1 ∧ ∃ al, a[2*i+1]? = some al ∧ less al ai = true ∧
      (∀ ar, a[2*i+2]? = some ar → less ar al = false)) ∨
    (sdSmallest less a i ai = 2*i+2 ∧ ∃ ar, a[2*i+2]? = some ar ∧
      ((∃ al, a[2*i+1]? = some al ∧ less al ai = true ∧ less ar al = true) ∨
       (less ar ai = true ∧ (∀ al, a[2*i+1]? = some al → less al ai = false)))) := by
  cases hal : a[2*i+1]? with
  | some al =>
    by_cases hl : less al ai = true
    · cases har : a[2*i+2]? with
      | some ar =>
        by_cases hr : less ar al = true
        · right; right
          have hval : sdSmallest less a i ai = 2*i+2 := by
            simp [sdSmallest, hal, har, hl, hr]
          exact ⟨hval, ar, rfl, Or.inl ⟨al, rfl, hl, hr⟩⟩
        · right; left
          have hval : sdSmallest less a i ai = 2*i+1 := by
            simp [sdSmallest, hal, har, hl, hr]
          refine ⟨hval, al, rfl, hl, ?_⟩
          intro ar2 hz
          cases hz
          simpa using hr
      | none =>
        right; left
        have hval : sdSmallest less a i ai = 2*i+1 := by
          simp [sdSmallest, hal, har, hl]
        refine ⟨hval, al, rfl, hl, ?_⟩
        intro ar hz
        cases hz
    · cases har : a[2*i+2]? with
      | some ar =>
        by_cases hr : less ar ai = true
        · right; right
          have hval : sdSmallest less a i ai = 2*i+2 := by
            simp [sdSmallest, hal, har, hl, hr]
          refine ⟨hval, ar, rfl, Or.inr ⟨hr, ?_⟩⟩
          intro al2 hz
          cases hz
          simpa using hl
        · left
          have hval : sdSmallest less a i ai = i := by
            simp [sdSmallest, hal, har, hl, hr]
          refine ⟨hval, ?_, ?_⟩
          · intro al2 hz
            cases hz
            simpa using hl
          · intro ar2 hz
            cases hz
            simpa using hr
      | none =>
        left
        have hval : sdSmallest less a i ai = i := by
          simp [sdSmallest, hal, har, hl]
        refine ⟨hval, ?_, ?_⟩
        · intro al2 hz
          cases hz
          simpa using hl
        · intro ar hz
          cases hz
  | none =>
    cases har : a[2*i+2]? with
    | some ar =>
      by_cases hr : less ar ai = true
      · right; right
        have hval : sdSmallest less a i ai = 2*i+2 := by
          simp [sdSmallest, hal, har, hr]
        refine ⟨hval, ar, rfl, Or.inr ⟨hr, ?_⟩⟩
        intro al2 hz
        cases hz
      · left
        have hval : sdSmallest less a i ai = i := by
          simp [sdSmallest, hal, har, hr]
        refine ⟨hval, ?_, ?_⟩
        · intro al2 hz
          cases hz
        · intro ar2 hz
          cases hz
          simpa using hr
    | none =>
      left
      have hval : sdSmallest less a i ai = i := by
        simp [sdSmallest, hal, har]
      refine ⟨hval, ?_, ?_⟩
      · intro al2 hz
        cases hz
      · intro ar hz
        cases hz

/-- Invariant carried by the sift-down loop: every parent edge holds except
those into position i, and the children of i satisfy the grandparent
property. -/
def SDInv {α : Type} (less : α → α → Bool) (a : List α) (i : Nat) : Prop :=
  (∀ j x y, 1 ≤ j → (j-1)/2 ≠ i → a[j]? = some x → a[(j-1)/2]? = some y → less x y = false) ∧
  (1 ≤ i → ∀ j x y, 1 ≤ j → (j-1)/2 = i → a[j]? = some x → a[(i-1)/2]? = some y →
    less x y = false)

theorem getElem?_lt_length {α : Type} {a : List α} {j : Nat} {x : α} (h : a[j]? = some x) :
    j < a.length := by
  by_contra hcon
  push_neg at hcon
  rw [List.getElem?_eq_none_iff.mpr hcon] at h
  cases h

theorem sdinv_step {α : Type} {less : α → α → Bool} (hL : LessOK less) (a : List α)
    (i s : Nat) (ai asm : α) (hai : a[i]? = some ai) (hs : s = 2*i+1 ∨ s = 2*i+2)
    (hsome : a[s]? = some asm) (hlt : less asm ai = true)
    (hoth : ∀ o x, (o = 2*i+1 ∨ o = 2*i+2) → o ≠ s → a[o]? = some x → less x asm = false)
    (hinv : SDInv less a i) :
    SDInv less ((a.set i asm).set s ai) s := by
  have hilen : i < a.length := getElem?_lt_length hai
  have hslen : s < a.length := getElem?_lt_length hsome
  have hine : i ≠ s := by omega
  have hg := getElem?_set_set a i s ai asm hine hilen hslen
  constructor
  · intro j x y hj hpjs hx hy
    rw [hg j] at hx
    rw [hg ((j-1)/2)] at hy
    by_cases hjs : j = s
    · have hpji : (j-1)/2 = i := by omega
      rw [if_pos hjs] at hx
      rw [hpji, if_neg (fun h => hine h), if_pos rfl] at hy
      cases hx
      cases hy
      exact hL.asym _ _ hlt
    · by_cases hji : j = i
      · have hi1 : 1 ≤ i := by omega
        have hpj1 : (j-1)/2 ≠ s := by omega
        have hpj2 : (j-1)/2 ≠ i := by omega
        rw [if_neg hjs, if_pos hji] at hx
        rw [if_neg hpj1, if_neg hpj2] at hy
        cases hx
        refine hinv.2 hi1 s asm y ?_ (by omega) hsome ?_
        · omega
        · rw [hji] at hy
          exact hy
      · rw [if_neg hjs, if_neg hji] at hx
        by_cases hpji : (j-1)/2 = i
        · rw [hpji, if_neg (fun h => hine h), if_pos rfl] at hy
          cases hy
          exact hoth j x (by omega) hjs hx
        · rw [if_neg hpjs, if_neg hpji] at hy
          exact hinv.1 j x y hj hpji hx hy
  · intro hs1 j x y hj hpjs hx hy
    have hpsi : (s-1)/2 = i := by omega
    rw [hg j] at hx
    rw [hpsi] at hy
    rw [hg i] at hy
    rw [if_neg (fun h => hine h), if_pos rfl] at hy
    cases hy
    have hjgt : j ≠ s ∧ j ≠ i := by omega
    rw [if_neg hjgt.1, if_neg hjgt.2] at hx
    refine hinv.1 j x asm hj (by omega) hx ?_
    rw [hpjs]
    exact hsome

theorem siftDown_heap {α : Type} {less : α → α → Bool} (hL : LessOK less) :
    ∀ fuel (a : List α) i, a.length ≤ fuel + i → SDInv less a i →
      HeapProp less (siftDown less fuel a i) := by
  intro fuel
  induction fuel with
  | zero =>
    intro a i hlen hinv
    show HeapProp less a
    intro j x y hj hx hy
    by_cases hpji : (j-1)/2 = i
    · exfalso
      have := getElem?_lt_length hx
      omega
    · exact hinv.1 j x y hj hpji hx hy
  | succ n ih =>
    intro a i hlen hinv
    rw [siftDown]
    cases hai : a[i]? with
    | none =>
      show HeapProp less a
      intro j x y hj hx hy
      by_cases hpji : (j-1)/2 = i
      · exfalso
        have hjl := getElem?_lt_length hx
        have hil : ¬ i < a.length := by
          intro hcon
          rw [List.getElem?_eq_none_iff] at hai
          omega
        omega
      · exact hinv.1 j x y hj hpji hx hy
    | some ai =>
      have hilen : i < a.length := getElem?_lt_length hai
      show HeapProp less (if sdSmallest less a i ai = i then a else
        match a[sdSmallest less a i ai]? with
        | none => a
        | some asm =>
          siftDown less n ((a.set i asm).set (sdSmallest less a i ai) ai) (sdSmallest less a i ai))
      rcases sdSmallest_spec less a i ai with ⟨hsm, hcl, hcr⟩ | ⟨hsm, al, hal, hll, hother⟩ |
        ⟨hsm, ar, har, hcase⟩
      · rw [if_pos hsm]
        intro j x y hj hx hy
        by_cases hpji : (j-1)/2 = i
        · have hy2 : y = ai := by
            rw [hpji, hai] at hy
            cases hy
            rfl
          subst hy2
          have hjor : j = 2*i+1 ∨ j = 2*i+2 := by omega
          rcases hjor with hj1 | hj2
          · exact hcl x (hj1 ▸ hx)
          · exact hcr x (hj2 ▸ hx)
        · exact hinv.1 j x y hj hpji hx hy
      · have hne : sdSmallest less a i ai ≠ i := by omega
        rw [if_neg hne, hsm, hal]
        show HeapProp less (siftDown less n ((a.set i al).set (2*i+1) ai) (2*i+1))
        refine ih _ (2*i+1) ?_ ?_
        · rw [List.length_set, List.length_set]
          omega
        · refine sdinv_step hL a i (2*i+1) ai al hai (Or.inl rfl) hal hll ?_ hinv
          intro o x ho hos hox
          have ho2 : o = 2*i+2 := by omega
          exact hother x (ho2 ▸ hox)
      · have hne : sdSmallest less a i ai ≠ i := by omega
        rw [if_neg hne, hsm, har]
        show HeapProp less (siftDown less n ((a.set i ar).set (2*i+2) ai) (2*i+2))
        have hlt : less ar ai = true := by
          rcases hcase with ⟨al, hal, hll, hrl⟩ | ⟨hr, _⟩
          · exact hL.ltrans _ _ _ hrl hll
          · exact hr
        refine ih _ (2*i+2) ?_ ?_
        · rw [List.length_set, List.length_set]
          omega
        · refine sdinv_step hL a i (2*i+2) ai ar hai (Or.inr rfl) har hlt ?_ hinv
          intro o x ho hos hox
          have ho2 : o = 2*i+1 := by omega
          subst ho2
          rcases hcase with ⟨al, hal, hll, hrl⟩ | ⟨hr, hforall⟩
          · rw [hal] at hox
            cases hox
            exact hL.asym _ _ hrl
          · by_contra hcon
            rw [Bool.not_eq_false] at hcon
            have h2 : less x ai = true := hL.ltrans _ _ _ hcon hr
            have h3 : less x ai = false := hforall x hox
            rw [h2] at h3
            cases h3

theorem hpop_heap {α : Type} {less : α → α → Bool} (hL : LessOK less) (a : List α)
    (hheap : HeapProp less a) : HeapProp less (hpop less a).2 := by
  match a with
  | [] =>
    show HeapProp less ([] : List α)
    intro j x y hj hx hy
    simp at hx
  | x :: xs =>
    show HeapProp less (if ((x :: xs).dropLast).length ≠ 0 then
        siftDown less ((x :: xs).dropLast).length
          (((x :: xs).dropLast).set 0 ((x :: xs).getLast?.getD x)) 0
      else (x :: xs).dropLast)
    by_cases hne : ((x :: xs).dropLast).length ≠ 0
    · rw [if_pos hne]
      refine siftDown_heap hL _ _ 0 (by rw [List.length_set]; omega) ⟨?_, ?_⟩
      · intro j u v hj hpj hu hv
        rw [List.getElem?_set, if_neg (by omega)] at hu
        rw [List.getElem?_set, if_neg (fun h => hpj h.symm)] at hv
        rw [List.getElem?_dropLast] at hu hv
        by_cases hjl : j < (x :: xs).length - 1
        · rw [if_pos hjl] at hu
          rw [if_pos (by omega)] at hv
          exact hheap j u v hj hu hv
        · rw [if_neg hjl] at hu
          cases hu
      · intro h0
        omega
    · rw [if_neg hne]
      intro j u v hj hu hv
      have := getElem?_lt_length hu
      omega

theorem heapProp_min {α : Type} {less : α → α → Bool} (hL : LessOK less) (a : List α)
    (hheap : HeapProp less a) (r : α) (hr : a[0]? = some r) :
    ∀ (j : Nat) (x : α), a[j]? = some x → less x r = false := by
  intro j
  induction j using Nat.strong_induction_on with
  | _ j ih =>
    intro x hx
    match j with
    | 0 =>
      rw [hr] at hx
      cases hx
      exact lessOK_irrefl hL r
    | jj + 1 =>
      have hjl := getElem?_lt_length hx
      have hpl : (jj + 1 - 1) / 2 < a.length := by omega
      cases hy : a[(jj + 1 - 1) / 2]? with
      | none =>
        exfalso
        rw [List.getElem?_eq_none_iff] at hy
        omega
      | some y =>
        have h1 : less x y = false := hheap (jj+1) x y (by omega) hx hy
        have h2 : less y r = false := ih ((jj + 1 - 1) / 2) (by omega) y hy
        exact hL.nltrans _ _ _ h1 h2

/-- Invariant of the scanning fold of topK: the heap is well-shaped, holds
min(k, seen) items, and every item discarded so far is no better than every
item still in the heap. -/
def TopKInv {α : Type} (cmp : α → α → ℚ) (k : Int) (seen heap : List α) : Prop :=
  HeapProp (fun a b => decide (cmp a b > 0)) heap ∧
  heap.length = min k.toNat seen.length ∧
  ∃ rest, seen.Perm (heap ++ rest) ∧ ∀ d ∈ rest, ∀ y ∈ heap, cmp y d ≤ 0

theorem heapProp_min_mem {α : Type} {less : α → α → Bool} (hL : LessOK less) (a : List α)
    (hheap : HeapProp less a) (r : α) (hr : a[0]? = some r) (y : α) (hy : y ∈ a) :
    less y r = false := by
  obtain ⟨j, hj, hget⟩ := List.getElem_of_mem hy
  refine heapProp_min hL a hheap r hr j y ?_
  rw [List.getElem?_eq_getElem hj, hget]

theorem topKStep_inv {α : Type} (cmp : α → α → ℚ) (hc : IsTotalCmp cmp) (k : Int)
    (hk : 0 < k) (seen heap : List α) (item : α) (hinv : TopKInv cmp k seen heap) :
    TopKInv cmp k (seen ++ [item]) (MinHeapTopKSelector.topKStep cmp k heap item) := by
  have hL := lessOK_of_totalCmp cmp hc
  obtain ⟨hflip, htrans⟩ := hc
  obtain ⟨hheap, hlen, rest, hperm, hbound⟩ := hinv
  unfold MinHeapTopKSelector.topKStep
  by_cases hfull : (heap.length : Int) < k
  · rw [if_pos hfull]
    have hrl : seen.length = heap.length + rest.length := by
      have := hperm.length_eq
      simpa using this
    have hrest : rest = [] := by
      rw [List.length_eq_zero.symm]
      omega
    subst hrest
    rw [List.append_nil] at hperm
    refine ⟨hpush_heap hL heap item hheap, ?_, [], ?_, ?_⟩
    · rw [hpush_length]
      simp only [List.length_append, List.length_cons, List.length_nil]
      omega
    · rw [List.append_nil]
      refine (hperm.append_right [item]).trans ?_
      exact (List.perm_append_singleton item heap).trans (hpush_perm _ heap item).symm
    · intro d hd
      cases hd
  · rw [if_neg hfull]
    have hsl : k.toNat ≤ seen.length := by omega
    match heap, hheap, hlen, hperm, hbound with
    | [], _, hlen, _, _ =>
      exfalso
      simp only [List.length_nil] at hlen
      omega
    | w :: hs, hheap, hlen, hperm, hbound =>
      have hget : (w :: hs)[0]? = some w := by simp
      rw [hget]
      show TopKInv cmp k (seen ++ [item])
        (if cmp item w < 0 then
          hpush (fun a b => decide (cmp a b > 0))
            (hpop (fun a b => decide (cmp a b > 0)) (w :: hs)).2 item
        else w :: hs)
      have hwmin : ∀ z ∈ (w :: hs), cmp z w ≤ 0 := by
        intro z hz
        have h := heapProp_min_mem hL (w :: hs) hheap w hget z hz
        simp only [decide_eq_false_iff_not, not_lt] at h
        exact h
      by_cases hlt : cmp item w < 0
      · rw [if_pos hlt]
        obtain ⟨hpop1, hpop2⟩ := hpop_spec (fun a b => decide (cmp a b > 0)) w hs
        have h1 : (hpush (fun a b => decide (cmp a b > 0))
            (hpop (fun a b => decide (cmp a b > 0)) (w :: hs)).2 item).Perm (item :: hs) :=
          (hpush_perm _ _ _).trans (hpop2.cons item)
        refine ⟨hpush_heap hL _ item (hpop_heap hL _ hheap), ?_, w :: rest, ?_, ?_⟩
        · rw [hpush_length, hpop2.length_eq]
          simp only [List.length_cons, List.length_append, List.length_nil] at hlen ⊢
          omega
        · refine (hperm.append_right [item]).trans ?_
          refine (List.perm_append_singleton item _).trans ?_
          refine List.Perm.trans ?_ ((h1.append_right (w :: rest)).symm)
          show (item :: (w :: (hs ++ rest))).Perm (item :: (hs ++ w :: rest))
          exact (List.perm_middle).symm.cons item
        · intro d hd y hy
          have hy2 : y = item ∨ y ∈ hs := by
            have := h1.mem_iff.mp hy
            simpa using this
          rcases List.mem_cons.mp hd with rfl | hdr
          · rcases hy2 with rfl | hyhs
            · exact le_of_lt hlt
            · exact hwmin y (List.mem_cons_of_mem _ hyhs)
          · rcases hy2 with rfl | hyhs
            · exact htrans _ _ _ (le_of_lt hlt) (hbound d hdr w (List.mem_cons_self _ _))
            · exact hbound d hdr y (List.mem_cons_of_mem _ hyhs)
      · rw [if_neg hlt]
        refine ⟨hheap, ?_, item :: rest, ?_, ?_⟩
        · simp only [List.length_cons, List.length_append, List.length_nil] at hlen ⊢
          omega
        · refine (hperm.append_right [item]).trans ?_
          refine (List.perm_append_singleton item _).trans ?_
          show (item :: ((w :: hs) ++ rest)).Perm ((w :: hs) ++ item :: rest)
          exact List.perm_middle.symm
        · intro d hd y hy
          rcases List.mem_cons.mp hd with rfl | hdr
          · have hwi : cmp w d ≤ 0 := by
              by_contra hcon
              push_neg at hcon
              exact hlt ((hflip d w).mpr hcon)
            exact htrans _ _ _ (hwmin y hy) hwi
          · exact hbound d hdr y hy

theorem topK_fold_inv {α : Type} (cmp : α → α → ℚ) (hc : IsTotalCmp cmp) (k : Int)
    (hk : 0 < k) (items : List α) :
    TopKInv cmp k items (items.foldl (MinHeapTopKSelector.topKStep cmp k) []) := by
  induction items using List.reverseRecOn with
  | nil =>
    refine ⟨?_, by simp, [], by simp, by simp⟩
    intro j x y hj hx hy
    simp at hx
  | append_singleton l a ih =>
    rw [List.foldl_append, List.foldl_cons, List.foldl_nil]
    exact topKStep_inv cmp hc k hk l _ a ih

theorem topKStep_push {α : Type} (cmp : α → α → ℚ) (k : Int) (h : List α) (item : α)
    (hlt : (h.length : Int) < k) :
    MinHeapTopKSelector.topKStep cmp k h item =
      hpush (fun a b => decide (cmp a b > 0)) h item := by
  unfold MinHeapTopKSelector.topKStep
  rw [if_pos hlt]

theorem topK_fold_perm_small {α : Type} (cmp : α → α → ℚ) (k : Int) :
    ∀ (items : List α), (items.length : Int) ≤ k →
      (items.foldl (MinHeapTopKSelector.topKStep cmp k) []).Perm items := by
  intro items
  induction items using List.reverseRecOn with
  | nil => intro _; simp
  | append_singleton l a ih =>
    intro hlen
    rw [List.foldl_append, List.foldl_cons, List.foldl_nil]
    simp only [List.length_append, List.length_cons, List.length_nil] at hlen
    have hl : (l.length : Int) ≤ k := by push_cast at hlen ⊢; omega
    have hperm := ih hl
    have hheaplen : ((l.foldl (MinHeapTopKSelector.topKStep cmp k) []).length : Int) < k := by
      rw [hperm.length_eq]
      push_cast at hlen ⊢
      omega
    rw [topKStep_push cmp k _ a hheaplen]
    exact (hpush_perm _ _ _).trans ((hperm.cons a).trans (List.perm_append_singleton a l).symm)

theorem topK_small {α : Type} (cmp : α → α → ℚ) (k : Int) (items : List α)
    (hk : 0 < k) (hlen : (items.length : Int) ≤ k) :
    ∃ h, h.Perm items ∧ MinHeapTopKSelector.topK items k cmp = jsSort cmp h := by
  refine ⟨items.foldl (MinHeapTopKSelector.topKStep cmp k) [],
    topK_fold_perm_small cmp k items hlen, ?_⟩
  unfold MinHeapTopKSelector.topK
  rw [if_neg (by omega)]

theorem totalCmp_le_total {α : Type} (cmp : α → α → ℚ) (hc : IsTotalCmp cmp) (a b : α) :
    cmp a b ≤ 0 ∨ cmp b a ≤ 0 := by
  obtain ⟨hflip, _⟩ := hc
  by_cases h : cmp a b ≤ 0
  · exact Or.inl h
  · push_neg at h
    exact Or.inr (le_of_lt ((hflip b a).mpr h))

theorem topK_correct {α : Type} (cmp : α → α → ℚ) (hc : IsTotalCmp cmp) (items : List α)
    (k : Int) (hk : 0 < k) :
    (MinHeapTopKSelector.topK items k cmp).length = min k.toNat items.length ∧
    (MinHeapTopKSelector.topK items k cmp).Pairwise (fun a b => cmp a b ≤ 0) ∧
    ∃ rest, items.Perm (MinHeapTopKSelector.topK items k cmp ++ rest) ∧
      ∀ d ∈ rest, ∀ y ∈ MinHeapTopKSelector.topK items k cmp, cmp y d ≤ 0 := by
  obtain ⟨hheap, hlen, rest, hperm, hbound⟩ := topK_fold_inv cmp hc k hk items
  have heq : MinHeapTopKSelector.topK items k cmp =
      jsSort cmp (items.foldl (MinHeapTopKSelector.topKStep cmp k) []) := by
    unfold MinHeapTopKSelector.topK
    rw [if_neg (by omega)]
  have hsortperm := jsSort_perm cmp (items.foldl (MinHeapTopKSelector.topKStep cmp k) [])
  refine ⟨?_, ?_, rest, ?_, ?_⟩
  · rw [heq, jsSort_length, hlen]
  · rw [heq]
    exact jsSort_pairwise cmp _ (fun a b c => hc.2 a b c) (pairwise_of_forall _
      (totalCmp_le_total cmp hc) _)
  · rw [heq]
    exact hperm.trans ((hsortperm.symm).append_right rest)
  · intro d hd y hy
    rw [heq] at hy
    exact hbound d hd y (hsortperm.mem_iff.mp hy)

/-! TF-IDF ranker (src/core/impl/tfidfRanker.ts). -/

/-- SearchHit record of src/core/types.ts. -/
structure SearchHit where
  docId : DocId
  score : ℚ
deriving DecidableEq

/-- Abstraction of the JavaScript Math functions the ranker calls; the
scoring layer is parametric in their numeric behaviour. -/
structure MathOps where
  log : ℚ → ℚ
  sqrt : ℚ → ℚ

/-- RankContext of src/core/ranker.ts, instantiated at MemoryInvertedIndex. -/
structure RankContext where
  index : IndexState
  stats : IndexStats
  docLengths : Option (List (DocId × ℚ))

/-- RankOptions of src/core/ranker.ts. candidateLimit is used as a count
(truthiness test plus slice bound), modelled as a natural number. -/
structure RankOptions where
  idfSmoothing : Option ℚ
  candidateLimit : Option Nat
deriving DecidableEq

/-- Comparator of the final hit sort, shared by TfIdfRanker.rank and
MemorySearchEngine.search: b.score - a.score || (a.docId < b.docId ? -1 : 1). -/
def cmpHit (a b : SearchHit) : ℚ :=
  if b.score - a.score ≠ 0 then b.score - a.score
  else if a.docId < b.docId then -1 else 1

namespace TfIdfRanker

/-- idf of tfidfRanker.ts: log((N + s) / (df + s)) + 1. -/
def idf (M : MathOps) (docCount : ℚ) (df : ℚ) (smoothing : ℚ) : ℚ :=
  M.log ((docCount + smoothing) / (df + smoothing)) + 1

/-- Element of the termLists array built by rank. -/
structure TermList where
  term : Term
  idf : ℚ
  postings : List Posting

/-- The termLists gathering loop of rank: keep the query terms whose
postings list exists with a non-zero df, tagging each with its idf. -/
def gatherTermLists (M : MathOps) (ctx : RankContext) (docCount : Nat) (smoothing : ℚ)
    (queryTerms : List Term) : List TermList :=
  queryTerms.filterMap (fun t =>
    match MemoryInvertedIndex.getPostings ctx.index t with
    | none => none
    | some pl =>
      if pl.df = 0 then none
      else some (TermList.mk t (idf M (docCount : ℚ) (pl.df : ℚ) smoothing) pl.postings))

/-- The union-scoring double loop of rank: accumulate tf * idf per docId
into an insertion-ordered score map. -/
def unionScores (sortedLists : List TermList) : List (DocId × ℚ) :=
  sortedLists.foldl
    (fun m tl =>
      tl.postings.foldl
        (fun m2 p =>
          let prev := (mapGet m2 p.docId).getD 0
          mapSet m2 p.docId (prev + p.tf * tl.idf))
        m)
    []

/-- The optional candidateLimit prune of rank: when the limit is set,
non-zero and exceeded, keep the candidateLimit best partial scores. -/
def pruneCandidates (candidateLimit : Option Nat) (scores : List (DocId × ℚ)) :
    List (DocId × ℚ) :=
  match candidateLimit with
  | some cl =>
    if 0 < cl ∧ cl < scores.length then
      (jsSort (fun a b : DocId × ℚ => b.2 - a.2) scores).take cl
    else scores
  | none => scores

/-- The normalisation map of rank: divide by sqrt of the doc length when a
positive length is recorded. -/
def normaliseHits (M : MathOps) (ctx : RankContext) (candidates : List (DocId × ℚ)) :
    List SearchHit :=
  candidates.map (fun de =>
    match ctx.docLengths.bind (fun dl => mapGet dl de.1) with
    | some len => if 0 < len then SearchHit.mk de.1 (de.2 / M.sqrt len) else SearchHit.mk de.1 de.2
    | none => SearchHit.mk de.1 de.2)

/-- TfIdfRanker.rank: gather postings per query term, sort term lists by
posting count, union-score into a docId map, optionally prune to the best
candidateLimit partial scores, normalise by sqrt of doc length, and sort
by score descending with docId ascending tie-break. -/
def rank (M : MathOps) (queryTerms : List Term) (ctx : RankContext)
    (options : Option RankOptions) : List SearchHit :=
  let docCount := ctx.stats.docCount
  if docCount = 0 ∨ queryTerms.length = 0 then []
  else
    let smoothing := (options.bind RankOptions.idfSmoothing).getD 1
    let candidateLimit := options.bind RankOptions.candidateLimit
    let termLists := gatherTermLists M ctx docCount smoothing queryTerms
    if termLists.length = 0 then []
    else
      let sortedLists := jsSort
        (fun a b : TermList => (a.postings.length : ℚ) - (b.postings.length : ℚ)) termLists
      let hits := normaliseHits M ctx (pruneCandidates candidateLimit (unionScores sortedLists))
      jsSort cmpHit hits

end TfIdfRanker

theorem cmpHit_le_iff (a b : SearchHit) :
    cmpLe cmpHit a b ↔ b.score < a.score ∨ (b.score = a.score ∧ a.docId < b.docId) := by
  unfold cmpLe cmpHit
  by_cases h : b.score - a.score ≠ 0
  · rw [if_pos h]
    constructor
    · intro hle
      left
      have h2 : b.score - a.score < 0 := lt_of_le_of_ne hle h
      linarith
    · rintro (hlt | ⟨heq, _⟩)
      · linarith
      · exact absurd (by linarith : b.score - a.score = 0) h
  · rw [if_neg h]
    push_neg at h
    have heq : b.score = a.score := by linarith
    by_cases hd : a.docId < b.docId
    · rw [if_pos hd]
      constructor
      · intro _
        exact Or.inr ⟨heq, hd⟩
      · intro _
        norm_num
    · rw [if_neg hd]
      constructor
      · intro hle
        norm_num at hle
      · rintro (hlt | ⟨_, hdd⟩)
        · linarith
        · exact absurd hdd hd

theorem cmpHit_trans :
    ∀ a b c : SearchHit, cmpLe cmpHit a b → cmpLe cmpHit b c → cmpLe cmpHit a c := by
  intro a b c hab hbc
  rw [cmpHit_le_iff] at hab hbc ⊢
  rcases hab with h1 | ⟨h1e, h1d⟩ <;> rcases hbc with h2 | ⟨h2e, h2d⟩
  · exact Or.inl (lt_trans h2 h1)
  · exact Or.inl (by rw [h2e]; exact h1)
  · exact Or.inl (by rw [← h1e]; exact h2)
  · exact Or.inr ⟨by rw [h2e, h1e], lt_trans h1d h2d⟩

theorem cmpHit_asymm (a b : SearchHit) (h1 : cmpLe cmpHit a b) (h2 : cmpLe cmpHit b a) :
    False := by
  rw [cmpHit_le_iff] at h1 h2
  rcases h1 with h1 | ⟨h1e, h1d⟩ <;> rcases h2 with h2 | ⟨h2e, h2d⟩
  · linarith
  · linarith
  · linarith
  · exact absurd h2d (lt_asymm h1d)

theorem cmpHit_total_of_ne (a b : SearchHit) (h : a.docId ≠ b.docId) :
    cmpLe cmpHit a b ∨ cmpLe cmpHit b a := by
  rw [cmpHit_le_iff, cmpHit_le_iff]
  rcases lt_trichotomy a.score b.score with hs | hs | hs
  · right
    left
    exact hs
  · rcases lt_or_gt_of_ne h with hd | hd
    · left
      right
      exact ⟨hs.symm, hd⟩
    · right
      right
      exact ⟨hs, hd⟩
  · left
    left
    exact hs

theorem foldl_mapSet_nodup {κ β ι : Type} [DecidableEq κ] (f : ι → κ)
    (g : List (κ × β) → ι → β) :
    ∀ (l : List ι) (m : List (κ × β)), (m.map Prod.fst).Nodup →
      ((l.foldl (fun m2 x => mapSet m2 (f x) (g m2 x)) m).map Prod.fst).Nodup := by
  intro l
  induction l with
  | nil => exact fun m h => h
  | cons x t ih =>
    intro m h
    simp only [List.foldl_cons]
    exact ih _ (mapSet_keys_nodup m (f x) (g m x) h)

theorem unionScores_keys_nodup (tls : List TfIdfRanker.TermList) :
    ((TfIdfRanker.unionScores tls).map Prod.fst).Nodup := by
  unfold TfIdfRanker.unionScores
  have hgen : ∀ (m : List (DocId × ℚ)), (m.map Prod.fst).Nodup →
      ((tls.foldl
        (fun m tl =>
          tl.postings.foldl
            (fun m2 p =>
              let prev := (mapGet m2 p.docId).getD 0
              mapSet m2 p.docId (prev + p.tf * tl.idf))
            m)
        m).map Prod.fst).Nodup := by
    induction tls with
    | nil => exact fun m h => h
    | cons tl t ih =>
      intro m h
      simp only [List.foldl_cons]
      refine ih _ ?_
      exact foldl_mapSet_nodup (fun p : Posting => p.docId)
        (fun m2 p => (mapGet m2 p.docId).getD 0 + p.tf * tl.idf) tl.postings m h
  exact hgen [] (by simp)

theorem pruneCandidates_keys_nodup (cl : Option Nat) (scores : List (DocId × ℚ))
    (h : (scores.map Prod.fst).Nodup) :
    ((TfIdfRanker.pruneCandidates cl scores).map Prod.fst).Nodup := by
  unfold TfIdfRanker.pruneCandidates
  match cl with
  | none => exact h
  | some n =>
    show ((if 0 < n ∧ n < scores.length then
        (jsSort (fun a b : DocId × ℚ => b.2 - a.2) scores).take n
      else scores).map Prod.fst).Nodup
    by_cases hc : 0 < n ∧ n < scores.length
    · rw [if_pos hc]
      have hperm : ((jsSort (fun a b : DocId × ℚ => b.2 - a.2) scores).map Prod.fst).Perm
          (scores.map Prod.fst) := (jsSort_perm _ _).map _
      have hnd2 : ((jsSort (fun a b : DocId × ℚ => b.2 - a.2) scores).map Prod.fst).Nodup :=
        hperm.nodup_iff.mpr h
      exact List.Nodup.sublist ((List.take_sublist n _).map Prod.fst) hnd2
    · rw [if_neg hc]
      exact h

theorem normaliseHits_docIds (M : MathOps) (ctx : RankContext) (cands : List (DocId × ℚ)) :
    (TfIdfRanker.normaliseHits M ctx cands).map SearchHit.docId = cands.map Prod.fst := by
  unfold TfIdfRanker.normaliseHits
  rw [List.map_map]
  refine List.map_congr_left ?_
  intro de hde
  simp only [Function.comp]
  cases hdl : ctx.docLengths.bind (fun dl => mapGet dl de.1) with
  | none => simp [hdl]
  | some len => by_cases hp : 0 < len <;> simp [hdl, hp, SearchHit.mk]

theorem hits_sorted_of_nodup (l : List SearchHit) (hnd : (l.map SearchHit.docId).Nodup) :
    (jsSort cmpHit l).Pairwise (cmpLe cmpHit) ∧
      ((jsSort cmpHit l).map SearchHit.docId).Nodup := by
  constructor
  · refine jsSort_pairwise cmpHit l cmpHit_trans ?_
    have hnd2 : (l.map SearchHit.docId).Pairwise (fun a b => a ≠ b) := hnd
    have hp : l.Pairwise (fun a b => a.docId ≠ b.docId) := List.pairwise_map.mp hnd2
    exact hp.imp (fun h => cmpHit_total_of_ne _ _ h)
  · exact ((jsSort_perm cmpHit l).map SearchHit.docId).nodup_iff.mpr hnd

theorem rank_eq_cases (M : MathOps) (q : List Term) (ctx : RankContext)
    (o : Option RankOptions) :
    TfIdfRanker.rank M q ctx o = [] ∨
    ∃ hits, (hits.map SearchHit.docId).Nodup ∧
      TfIdfRanker.rank M q ctx o = jsSort cmpHit hits := by
  by_cases h1 : ctx.stats.docCount = 0 ∨ q.length = 0
  · left
    simp only [TfIdfRanker.rank]
    rw [if_pos h1]
  · by_cases h2 : (TfIdfRanker.gatherTermLists M ctx ctx.stats.docCount
        ((o.bind RankOptions.idfSmoothing).getD 1) q).length = 0
    · left
      simp only [TfIdfRanker.rank]
      rw [if_neg h1, if_pos h2]
    · right
      refine ⟨TfIdfRanker.normaliseHits M ctx
        (TfIdfRanker.pruneCandidates (o.bind RankOptions.candidateLimit)
          (TfIdfRanker.unionScores
            (jsSort (fun a b : TfIdfRanker.TermList =>
                (a.postings.length : ℚ) - (b.postings.length : ℚ))
              (TfIdfRanker.gatherTermLists M ctx ctx.stats.docCount
                ((o.bind RankOptions.idfSmoothing).getD 1) q)))), ?_, ?_⟩
      · rw [normaliseHits_docIds]
        exact pruneCandidates_keys_nodup _ _ (unionScores_keys_nodup _)
      · simp only [TfIdfRanker.rank]
        rw [if_neg h1, if_neg h2]

theorem rank_sorted (M : MathOps) (q : List Term) (ctx : RankContext)
    (o : Option RankOptions) :
    (TfIdfRanker.rank M q ctx o).Pairwise (cmpLe cmpHit) ∧
      ((TfIdfRanker.rank M q ctx o).map SearchHit.docId).Nodup := by
  rcases rank_eq_cases M q ctx o with h | ⟨hits, hnd, h⟩
  · rw [h]
    exact ⟨List.Pairwise.nil, List.nodup_nil⟩
  · rw [h]
    exact hits_sorted_of_nodup hits hnd

theorem rank_empty_of_degenerate (M : MathOps) (q : List Term) (ctx : RankContext)
    (o : Option RankOptions) (h : ctx.stats.docCount = 0 ∨ q = []) :
    TfIdfRanker.rank M q ctx o = [] := by
  simp only [TfIdfRanker.rank]
  rw [if_pos ?_]
  rcases h with h | h
  · exact Or.inl h
  · exact Or.inr (by rw [h]; rfl)

/-! Search engine (src/core/impl/memorySearchEngine.ts). -/

/-- DocumentInput of src/core/types.ts (the optional fields record is
never read by the engine). -/
structure DocumentInput where
  id : DocId
  text : String
deriving DecidableEq

/-- SearchOptions of memorySearchEngine.ts; enablePfx models the
enablePrefix flag. -/
structure SearchOptions where
  limit : Option Nat
  cursor : Option String
  enablePfx : Option Bool
  prefixLimit : Option Nat
  candidateLimit : Option Nat
deriving DecidableEq

/-- SearchPage of memorySearchEngine.ts. -/
structure SearchPage where
  hits : List SearchHit
  nextCursor : Option String
deriving DecidableEq

/-- Private state of a MemorySearchEngine instance: the docs registry and
docLengths map together with the injected index and trie states. -/
structure EngineState where
  docs : List (DocId × DocumentInput)
  docLengths : List (DocId × ℚ)
  index : IndexState
  trie : TrieNode

/-- ASCII whitespace reached by the engine's query splitting (JavaScript
literal whitespace class restricted to the ASCII range). -/
def isJsWhitespace (c : Char) : Bool :=
  decide (c = ' ' ∨ c = '\t' ∨ c = '\n' ∨ c = '\r' ∨ c.toNat = 11 ∨ c.toNat = 12)

/-- String.prototype.trim. -/
def jsTrim (s : String) : String :=
  ⟨((s.data.dropWhile isJsWhitespace).reverse.dropWhile isJsWhitespace).reverse⟩

/-- Fueled splitting loop on runs of whitespace. -/
def splitWsAux : Nat → List Char → List Char → List String
  | _, [], cur => [String.mk cur.reverse]
  | 0, _ :: _, cur => [String.mk cur.reverse]
  | f + 1, c :: rest, cur =>
    if isJsWhitespace c then
      String.mk cur.reverse :: splitWsAux f (rest.dropWhile isJsWhitespace) []
    else splitWsAux f rest (c :: cur)

/-- String.prototype.split with the whitespace-run pattern. -/
def splitWs (s : String) : List String := splitWsAux s.data.length s.data []

namespace MemorySearchEngine

/-- Per-token step of the indexing loop of upsertDocuments: bump the doc
length, the term frequency and the positions array, and insert the term
into the trie with trackFrequency set. -/
def upsertTokenStep (acc : ℚ × List (Term × ℚ) × List (Term × List Nat) × TrieNode)
    (tok : Token) : ℚ × List (Term × ℚ) × List (Term × List Nat) × TrieNode :=
  let termFreqs2 := mapSet acc.2.1 tok.term ((mapGet acc.2.1 tok.term).getD 0 + 1)
  let arr := (mapGet acc.2.2.1 tok.term).getD []
  let positions2 := mapSet acc.2.2.1 tok.term (arr ++ [tok.position])
  (acc.1 + 1, termFreqs2, positions2, MemoryTrie.insert acc.2.2.2 tok.term (some ⟨some true⟩))

/-- Indexing of a single document inside upsertDocuments. -/
def upsertOne (s : EngineState) (doc : DocumentInput) : EngineState :=
  let r := (SimpleTokenizer.tokenize doc.text ⟨some true, none⟩).foldl upsertTokenStep
    (0, [], [], s.trie)
  { docs := mapSet s.docs doc.id doc
    docLengths := mapSet s.docLengths doc.id r.1
    index := MemoryInvertedIndex.addDocument s.index doc.id r.2.1 (some r.2.2.1)
    trie := r.2.2.2 }

/-- MemorySearchEngine.upsertDocuments. -/
def upsertDocuments (s : EngineState) (docs : List DocumentInput) : EngineState :=
  docs.foldl upsertOne s

/-- MemorySearchEngine.removeDocument. -/
def removeDocument (s : EngineState) (docId : DocId) : EngineState :=
  { docs := mapDelete s.docs docId
    docLengths := mapDelete s.docLengths docId
    index := MemoryInvertedIndex.removeDocument s.index docId
    trie := s.trie }

/-- Query-term assembly of search: tokenize the raw query with stop-word
removal, then optionally append the trie completions of the last
whitespace-separated fragment when it has at least two characters. -/
def buildQueryTerms (s : EngineState) (rawQuery : String) (enablePfx : Bool)
    (prefixLimit : Nat) : List Term :=
  let queryTerms := (SimpleTokenizer.tokenize rawQuery ⟨some true, some true⟩).map Token.term
  if enablePfx ∧ rawQuery.length ≠ 0 then
    match (splitWs (jsTrim rawQuery)).getLast? with
    | some last =>
      if 2 ≤ last.length then
        queryTerms ++ (MemoryTrie.complete s.trie (jsToLowerCase last) prefixLimit).map
          TriePrefixResult.term
      else queryTerms
    | none => queryTerms
  else queryTerms

/-- The ranked hit list computed by search before pagination. -/
def engineAllHits (M : MathOps) (s : EngineState) (rawQuery : String)
    (options : Option SearchOptions) : List SearchHit :=
  TfIdfRanker.rank M
    (buildQueryTerms s rawQuery ((options.bind SearchOptions.enablePfx).getD true)
      ((options.bind SearchOptions.prefixLimit).getD 5))
    ⟨s.index, MemoryInvertedIndex.getStats s.index, some s.docLengths⟩
    (some ⟨none, options.bind SearchOptions.candidateLimit⟩)

/-- Cursor resolution of search: base64-decode the cursor, locate that
docId in the hit list, and start one past it; unknown or absent cursors
start at zero. -/
def cursorStart (allHits : List SearchHit) (cursor : Option String) : Nat :=
  match cursor with
  | none => 0
  | some c =>
    match allHits.findIdx? (fun h => decide (h.docId = cursorDecode c)) with
    | none => 0
    | some idx => idx + 1

/-- The page slice of search: allHits.slice(startIdx, startIdx + limit). -/
def pageOf (allHits : List SearchHit) (startIdx limit : Nat) : List SearchHit :=
  (allHits.drop startIdx).take limit

/-- The nextCursor computation of search: when more hits remain past the
page and the page is non-empty, base64-encode the docId of its last hit. -/
def nextCursorOf (allHits : List SearchHit) (startIdx limit : Nat) : Option String :=
  if startIdx + limit < allHits.length ∧ 0 < (pageOf allHits startIdx limit).length then
    ((pageOf allHits startIdx limit).getLast?).map (fun h => cursorEncode h.docId)
  else none

/-- MemorySearchEngine.search with the engine state threaded explicitly:
the second component is the state after the call. -/
def search (M : MathOps) (s : EngineState) (rawQuery : String)
    (options : Option SearchOptions) : SearchPage × EngineState :=
  let limit := (options.bind SearchOptions.limit).getD 10
  let allHits := engineAllHits M s rawQuery options
  let startIdx := cursorStart allHits (options.bind SearchOptions.cursor)
  (⟨MinHeapTopKSelector.topK (pageOf allHits startIdx limit) (limit : Int) cmpHit,
    nextCursorOf allHits startIdx limit⟩, s)

end MemorySearchEngine

theorem topK_sorted_id (l : List SearchHit) (k : Int) (hk : 0 < k)
    (hlen : (l.length : Int) ≤ k)
    (hsorted : l.Pairwise (cmpLe cmpHit)) (hnd : (l.map SearchHit.docId).Nodup) :
    MinHeapTopKSelector.topK l k cmpHit = l := by
  obtain ⟨h, hperm, heq⟩ := topK_small cmpHit k l hk hlen
  rw [heq]
  have hndh : (h.map SearchHit.docId).Nodup := (hperm.map SearchHit.docId).nodup_iff.mpr hnd
  have hsorted2 := (hits_sorted_of_nodup h hndh).1
  have hperm2 : (jsSort cmpHit h).Perm l := (jsSort_perm cmpHit h).trans hperm
  haveI : IsAntisymm SearchHit (cmpLe cmpHit) :=
    ⟨fun a b h1 h2 => (cmpHit_asymm a b h1 h2).elim⟩
  exact List.eq_of_perm_of_sorted hperm2 hsorted2 hsorted

theorem engineAllHits_sorted (M : MathOps) (s : EngineState) (q : String)
    (o : Option SearchOptions) :
    (MemorySearchEngine.engineAllHits M s q o).Pairwise (cmpLe cmpHit) ∧
      ((MemorySearchEngine.engineAllHits M s q o).map SearchHit.docId).Nodup :=
  rank_sorted M _ _ _

theorem pageOf_sublist (A : List SearchHit) (i k : Nat) :
    (MemorySearchEngine.pageOf A i k).Sublist A :=
  (List.take_sublist _ _).trans (List.drop_sublist _ _)

theorem pageOf_length (A : List SearchHit) (i k : Nat) :
    (MemorySearchEngine.pageOf A i k).length = min k (A.length - i) := by
  unfold MemorySearchEngine.pageOf
  rw [List.length_take, List.length_drop]

theorem topK_pageOf (A : List SearchHit) (i k : Nat) (hk : 1 ≤ k)
    (hs : A.Pairwise (cmpLe cmpHit)) (hnd : (A.map SearchHit.docId).Nodup) :
    MinHeapTopKSelector.topK (MemorySearchEngine.pageOf A i k) (k : Int) cmpHit =
      MemorySearchEngine.pageOf A i k := by
  have hlen : (MemorySearchEngine.pageOf A i k).length ≤ k := by
    rw [pageOf_length]
    omega
  refine topK_sorted_id _ _ (by omega) (by exact_mod_cast hlen) ?_ ?_
  · exact List.Pairwise.sublist (pageOf_sublist A i k) hs
  · exact List.Nodup.sublist ((pageOf_sublist A i k).map _) hnd

namespace MemoryTrie

theorem hasAux_navigate :
    ∀ (p : List Char) (t cur : TrieNode), navigateAux t p = some cur →
      ∀ tail, hasAux t (p ++ tail) = hasAux cur tail := by
  intro p
  induction p with
  | nil =>
    intro t cur h tail
    rw [navigateAux] at h
    cases h
    rfl
  | cons c cs ih =>
    intro t cur h tail
    rw [navigateAux] at h
    rw [List.cons_append, hasAux]
    cases hg : mapGet t.children c with
    | none =>
      rw [hg] at h
      cases h
    | some next =>
      rw [hg] at h
      exact ih next cur h tail

theorem complete_length_le (t : TrieNode) (pfx : String) (limit : Nat) :
    (complete t pfx limit).length ≤ limit := by
  unfold complete
  cases hnav : navigateAux t pfx.data with
  | none => simp
  | some cur =>
    rw [List.length_take]
    omega

theorem complete_mem_spec (t : TrieNode) (pfx : String) (limit : Nat) (hwf : WFNode t) :
    ∀ r ∈ complete t pfx limit,
      (∃ rest : String, r.term = pfx ++ rest) ∧ has t r.term = true := by
  intro r hr
  cases hnav : navigateAux t pfx.data with
  | none =>
    exfalso
    unfold complete at hr
    rw [hnav] at hr
    cases hr
  | some cur =>
    rw [complete_eq t pfx limit cur hnav] at hr
    have hr2 : r ∈ jsSort trieCmp ((lexEntries pfx [] cur).take limit) :=
      (List.take_sublist _ _).subset hr
    have hr3 : r ∈ (lexEntries pfx [] cur).take limit :=
      (jsSort_perm trieCmp _).subset hr2
    have hr4 : r ∈ lexEntries pfx [] cur := (List.take_sublist _ _).subset hr3
    have hwfcur : WFNode cur := wf_navigateAux pfx.data t cur hwf hnav
    obtain ⟨tail, hterm, hhas⟩ :=
      lexEntries_mem_spec pfx (nodeSize cur) cur [] r (le_refl _) hwfcur hr4
    simp only [List.nil_append] at hterm
    refine ⟨⟨⟨tail⟩, hterm⟩, ?_⟩
    unfold has
    rw [hterm, String.data_append]
    show hasAux t (pfx.data ++ tail) = true
    rw [hasAux_navigate pfx.data t cur hnav tail]
    exact hhas

theorem complete_pairwise (t : TrieNode) (pfx : String) (limit : Nat) (hwf : WFNode t) :
    (complete t pfx limit).Pairwise (fun a b =>
      b.weight.getD 0 < a.weight.getD 0 ∨
        (a.weight.getD 0 = b.weight.getD 0 ∧ a.term < b.term)) := by
  cases hnav : navigateAux t pfx.data with
  | none =>
    unfold complete
    rw [hnav]
    exact List.Pairwise.nil
  | some cur =>
    rw [complete_eq t pfx limit cur hnav]
    have hwfcur : WFNode cur := wf_navigateAux pfx.data t cur hwf hnav
    have hsorted : (lexEntries pfx [] cur).Pairwise (fun a b => a.term < b.term) :=
      lexEntries_sorted pfx (nodeSize cur) cur [] (le_refl _) hwfcur
    have htake : ((lexEntries pfx [] cur).take limit).Pairwise (fun a b => a.term < b.term) :=
      List.Pairwise.sublist (List.take_sublist _ _) hsorted
    have htot : ((lexEntries pfx [] cur).take limit).Pairwise
        (fun a b => cmpLe trieCmp a b ∨ cmpLe trieCmp b a) := by
      refine htake.imp ?_
      intro a b hab
      rcases lt_trichotomy (a.weight.getD 0) (b.weight.getD 0) with hw | hw | hw
      · right
        rw [trieCmp_le_iff]
        exact Or.inl hw
      · left
        rw [trieCmp_le_iff]
        exact Or.inr ⟨hw, hab⟩
      · left
        rw [trieCmp_le_iff]
        exact Or.inl hw
    have hsorted2 := jsSort_pairwise trieCmp _ trieCmp_trans htot
    have hfinal := List.Pairwise.sublist (List.take_sublist limit _) hsorted2
    exact hfinal.imp (fun h => (trieCmp_le_iff _ _).mp h)

end MemoryTrie

theorem mapGet_map_snd {κ β γ : Type} [DecidableEq κ] (g : β → γ) :
    ∀ (m : List (κ × β)) (k : κ),
      mapGet (m.map (fun tm => (tm.1, g tm.2))) k = (mapGet m k).map g := by
  intro m
  induction m with
  | nil => intro k; rfl
  | cons hd tl ih =>
    intro k
    obtain ⟨k2, v⟩ := hd
    by_cases hk : k2 = k
    · subst hk
      simp [mapGet]
    · simp [mapGet, hk, ih]

theorem getPostings_isSome_iff (s : IndexState) (t : Term) :
    (MemoryInvertedIndex.getPostings s t).isSome = (mapGet s.termToDocMap t).isSome := by
  unfold MemoryInvertedIndex.getPostings
  cases hg : mapGet s.termToDocMap t <;> rfl

theorem getPostings_isSome_remove (s : IndexState) (t : Term) (d : DocId)
    (h : (MemoryInvertedIndex.getPostings s t).isSome) :
    (MemoryInvertedIndex.getPostings (MemoryInvertedIndex.removeDocument s d) t).isSome := by
  rw [getPostings_isSome_iff] at h
  rw [getPostings_isSome_iff]
  unfold MemoryInvertedIndex.removeDocument
  by_cases hd : d ∈ s.docs
  · rw [if_pos hd]
    show (mapGet (s.termToDocMap.map (fun tm => (tm.1, mapDelete tm.2 d))) t).isSome = true
    rw [mapGet_map_snd (fun v : List (DocId × PostingEntry) => mapDelete v d)
      s.termToDocMap t]
    rw [Option.isSome_map']
    exact h
  · rw [if_neg hd]
    exact h

/-! Claim theorems. -/

/-- C1: the specification states that addDocument on an already-present
docId replaces all entries of that document, so a term absent from the new
termFrequencies must no longer list the doc.  The code does not clear the
old entries: after adding doc d under term old and re-adding d under term
new only, getPostings old still returns a posting for d, violating the
claimed replacement semantics. -/
theorem claim_C1 :
    (MemoryInvertedIndex.getPostings
        (applyOps [IndexOp.add "d" [("old", 1)] none, IndexOp.add "d" [("new", 1)] none])
        "old").map (fun pl => pl.postings.map Posting.docId) = some ["d"] := by decide

/-- C2: the claim that getPostings never returns a df = 0 list is false —
a term emptied by removeDocument keeps its (now empty) doc map and
getPostings materialises it as a PostingsList with df = 0.  The corrected
guarantees, proved here over every call trace: every returned list has df
equal to the length of its postings array and, whenever that df is 0,
hasTerm reports false for the term; and removeDocument never deletes a
term key, so a term whose getPostings is present stays present after a
further removeDocument. -/
theorem claim_C2 (ops : List IndexOp) (t : Term) :
    (∀ pl, MemoryInvertedIndex.getPostings (applyOps ops) t = some pl →
      pl.df = pl.postings.length ∧
      (pl.df = 0 → MemoryInvertedIndex.hasTerm (applyOps ops) t = false)) ∧
    ∀ d, (MemoryInvertedIndex.getPostings (applyOps ops) t).isSome →
      (MemoryInvertedIndex.getPostings (applyOps (ops ++ [IndexOp.remove d])) t).isSome := by
  constructor
  · intro pl h
    exact ⟨getPostings_df_eq_length (applyOps ops) t pl h,
      fun hdf => getPostings_df_zero_hasTerm (applyOps ops) t pl h hdf⟩
  · intro d h
    have happ : applyOps (ops ++ [IndexOp.remove d]) =
        MemoryInvertedIndex.removeDocument (applyOps ops) d := by
      unfold applyOps
      rw [List.foldl_append]
      rfl
    rw [happ]
    exact getPostings_isSome_remove (applyOps ops) t d h

/-- C2 witness: on the trace add d under t then remove d, getPostings t
returns the df = 0 list, the theorem yields hasTerm t = false, and the
term is still present after one more removeDocument. -/
theorem claim_C2_witness :
    MemoryInvertedIndex.getPostings
        (applyOps [IndexOp.add "d" [("t", 1)] none, IndexOp.remove "d"]) "t" =
      some ⟨"t", 0, []⟩ ∧
    MemoryInvertedIndex.hasTerm
        (applyOps [IndexOp.add "d" [("t", 1)] none, IndexOp.remove "d"]) "t" = false ∧
    (MemoryInvertedIndex.getPostings
        (applyOps ([IndexOp.add "d" [("t", 1)] none, IndexOp.remove "d"] ++
          [IndexOp.remove "e"])) "t").isSome :=
  ⟨by decide,
    ((claim_C2 [IndexOp.add "d" [("t", 1)] none, IndexOp.remove "d"] "t").1 ⟨"t", 0, []⟩
      (by decide)).2 rfl,
    (claim_C2 [IndexOp.add "d" [("t", 1)] none, IndexOp.remove "d"] "t").2 "e"
      (by decide)⟩

/-- C2 counterexample to the claimed invariant: after the term's posting
set is emptied by removeDocument, getPostings still returns a list and its
df is 0, not at least 1. -/
theorem claim_C2_counterexample :
    MemoryInvertedIndex.getPostings
        (applyOps [IndexOp.add "d" [("t", 1)] none, IndexOp.remove "d"]) "t" =
      some ⟨"t", 0, []⟩ := by decide

/-- C3: the claim that nextCursor is the raw docId of the last returned
hit is false — the engine base64-encodes it.  Corrected form, proved here:
whenever search returns a nextCursor, it equals cursorEncode (the
Buffer base64 encoding) of the docId of the last hit of the returned
page. -/
theorem claim_C3 (M : MathOps) (s : EngineState) (q : String)
    (o : Option SearchOptions) (c : String)
    (h : (MemorySearchEngine.search M s q o).1.nextCursor = some c) :
    ∃ x, ((MemorySearchEngine.search M s q o).1.hits).getLast? = some x ∧
      c = cursorEncode x.docId := by
  obtain ⟨hsA, hndA⟩ := engineAllHits_sorted M s q o
  have hN : (MemorySearchEngine.search M s q o).1.nextCursor =
      MemorySearchEngine.nextCursorOf (MemorySearchEngine.engineAllHits M s q o)
        (MemorySearchEngine.cursorStart (MemorySearchEngine.engineAllHits M s q o)
          (o.bind SearchOptions.cursor)) ((o.bind SearchOptions.limit).getD 10) := rfl
  have hH : (MemorySearchEngine.search M s q o).1.hits =
      MinHeapTopKSelector.topK
        (MemorySearchEngine.pageOf (MemorySearchEngine.engineAllHits M s q o)
          (MemorySearchEngine.cursorStart (MemorySearchEngine.engineAllHits M s q o)
            (o.bind SearchOptions.cursor)) ((o.bind SearchOptions.limit).getD 10))
        (((o.bind SearchOptions.limit).getD 10 : Nat) : Int) cmpHit := rfl
  rw [hN] at h
  unfold MemorySearchEngine.nextCursorOf at h
  by_cases hc : MemorySearchEngine.cursorStart (MemorySearchEngine.engineAllHits M s q o)
        (o.bind SearchOptions.cursor) + (o.bind SearchOptions.limit).getD 10 <
        (MemorySearchEngine.engineAllHits M s q o).length ∧
      0 < (MemorySearchEngine.pageOf (MemorySearchEngine.engineAllHits M s q o)
        (MemorySearchEngine.cursorStart (MemorySearchEngine.engineAllHits M s q o)
          (o.bind SearchOptions.cursor)) ((o.bind SearchOptions.limit).getD 10)).length
  · rw [if_pos hc] at h
    cases hlast : (MemorySearchEngine.pageOf (MemorySearchEngine.engineAllHits M s q o)
        (MemorySearchEngine.cursorStart (MemorySearchEngine.engineAllHits M s q o)
          (o.bind SearchOptions.cursor)) ((o.bind SearchOptions.limit).getD 10)).getLast? with
    | none =>
      rw [hlast] at h
      cases h
    | some x =>
      rw [hlast] at h
      have h2 : some (cursorEncode x.docId) = some c := h
      refine ⟨x, ?_, ?_⟩
      · rw [hH]
        have hk1 : 1 ≤ (o.bind SearchOptions.limit).getD 10 := by
          have h3 := hc.2
          rw [pageOf_length] at h3
          omega
        rw [topK_pageOf _ _ _ hk1 hsA hndA]
        exact hlast
      · injection h2 with h3
        exact h3.symm
  · rw [if_neg hc] at h
    cases h

/-- C3 witness: on a two-document corpus with page size 1, search returns
the cursor YQ== and the theorem exhibits it as cursorEncode of the last
page docId a. -/
theorem claim_C3_witness :
    ((MemorySearchEngine.search ⟨fun _ => 0, fun _ => 1⟩
        (MemorySearchEngine.upsertDocuments ⟨[], [], MemoryInvertedIndex.empty, makeNode⟩
          [⟨"a", "x"⟩, ⟨"b", "x"⟩])
        "x" (some ⟨some 1, none, some false, none, none⟩)).1.nextCursor = some "YQ==") ∧
    (∃ x, ((MemorySearchEngine.search ⟨fun _ => 0, fun _ => 1⟩
        (MemorySearchEngine.upsertDocuments ⟨[], [], MemoryInvertedIndex.empty, makeNode⟩
          [⟨"a", "x"⟩, ⟨"b", "x"⟩])
        "x" (some ⟨some 1, none, some false, none, none⟩)).1.hits).getLast? = some x ∧
      "YQ==" = cursorEncode x.docId) :=
  ⟨by with_unfolding_all decide,
    claim_C3 ⟨fun _ => 0, fun _ => 1⟩
      (MemorySearchEngine.upsertDocuments ⟨[], [], MemoryInvertedIndex.empty, makeNode⟩
        [⟨"a", "x"⟩, ⟨"b", "x"⟩])
      "x" (some ⟨some 1, none, some false, none, none⟩) "YQ==" (by with_unfolding_all decide)⟩

/-- C3 counterexample to the claimed raw-docId cursor: the last hit of the
returned page has docId a but the emitted cursor is YQ==, its base64
encoding, which differs from a character for character. -/
theorem claim_C3_counterexample :
    ((MemorySearchEngine.search ⟨fun _ => 0, fun _ => 1⟩
        (MemorySearchEngine.upsertDocuments ⟨[], [], MemoryInvertedIndex.empty, makeNode⟩
          [⟨"a", "x"⟩, ⟨"b", "x"⟩])
        "x" (some ⟨some 1, none, some false, none, none⟩)).1.nextCursor = some "YQ==") ∧
    (((MemorySearchEngine.search ⟨fun _ => 0, fun _ => 1⟩
        (MemorySearchEngine.upsertDocuments ⟨[], [], MemoryInvertedIndex.empty, makeNode⟩
          [⟨"a", "x"⟩, ⟨"b", "x"⟩])
        "x" (some ⟨some 1, none, some false, none, none⟩)).1.hits).map SearchHit.docId
      = ["a"]) ∧
    ("YQ==" : String) ≠ "a" := by with_unfolding_all decide

/-- C5: rank returns hits sorted by score descending, with any exact score
tie broken by ascending docId, and returns the empty list when queryTerms
is empty or docCount is zero. -/
theorem claim_C5 (M : MathOps) (q : List Term) (ctx : RankContext) (o : Option RankOptions) :
    (TfIdfRanker.rank M q ctx o).Pairwise
      (fun a b => b.score ≤ a.score ∧ (a.score = b.score → a.docId < b.docId)) ∧
    (ctx.stats.docCount = 0 ∨ q = [] → TfIdfRanker.rank M q ctx o = []) := by
  constructor
  · refine (rank_sorted M q ctx o).1.imp ?_
    intro a b hab
    rw [cmpHit_le_iff] at hab
    rcases hab with h | ⟨he, hd⟩
    · exact ⟨le_of_lt h, fun heq => absurd h (by rw [heq]; exact lt_irrefl _)⟩
    · exact ⟨le_of_eq he, fun _ => hd⟩
  · exact rank_empty_of_degenerate M q ctx o

/-- C5 witness: on an empty query the degenerate clause evaluates to the
empty result for a concrete context. -/
theorem claim_C5_witness :
    ((⟨MemoryInvertedIndex.empty, ⟨0⟩, none⟩ : RankContext).stats.docCount = 0 ∨
      ([] : List Term) = []) ∧
    TfIdfRanker.rank ⟨fun _ => 0, fun _ => 1⟩ [] ⟨MemoryInvertedIndex.empty, ⟨0⟩, none⟩
      none = [] :=
  ⟨Or.inr rfl,
    (claim_C5 ⟨fun _ => 0, fun _ => 1⟩ [] ⟨MemoryInvertedIndex.empty, ⟨0⟩, none⟩ none).2
      (Or.inr rfl)⟩

/-- C6: on well-formed tries, complete returns at most limit results, each
returned term extends the prefix and is a live terminal of the trie, the
list is ordered by weight descending (missing weight read as 0) with ties
by term ascending, and the output is invariant under reordering of the
children maps. -/
theorem claim_C6 (t1 t2 : TrieNode) (pfx : String) (limit : Nat)
    (hwf1 : MemoryTrie.WFNode t1) (hwf2 : MemoryTrie.WFNode t2)
    (heq : MemoryTrie.NEquiv t1 t2) :
    (MemoryTrie.complete t1 pfx limit).length ≤ limit ∧
    (∀ r ∈ MemoryTrie.complete t1 pfx limit,
      (∃ rest : String, r.term = pfx ++ rest) ∧ MemoryTrie.has t1 r.term = true) ∧
    (MemoryTrie.complete t1 pfx limit).Pairwise (fun a b =>
      b.weight.getD 0 < a.weight.getD 0 ∨
        (a.weight.getD 0 = b.weight.getD 0 ∧ a.term < b.term)) ∧
    MemoryTrie.complete t1 pfx limit = MemoryTrie.complete t2 pfx limit :=
  ⟨MemoryTrie.complete_length_le t1 pfx limit,
    MemoryTrie.complete_mem_spec t1 pfx limit hwf1,
    MemoryTrie.complete_pairwise t1 pfx limit hwf1,
    MemoryTrie.complete_nequiv t1 t2 pfx limit hwf1 hwf2 heq⟩

/-- C6 witness: the theorem applied to the concrete one-word trie, its
well-formedness derived through wf_insert and reflexive child-order
equivalence. -/
theorem claim_C6_witness :
    (MemoryTrie.complete (MemoryTrie.insert makeNode "ab" (some ⟨some true⟩)) "a" 5).length
      ≤ 5 ∧
    (∀ r ∈ MemoryTrie.complete (MemoryTrie.insert makeNode "ab" (some ⟨some true⟩)) "a" 5,
      (∃ rest : String, r.term = "a" ++ rest) ∧
        MemoryTrie.has (MemoryTrie.insert makeNode "ab" (some ⟨some true⟩)) r.term = true) ∧
    (MemoryTrie.complete (MemoryTrie.insert makeNode "ab" (some ⟨some true⟩)) "a" 5).Pairwise
      (fun a b => b.weight.getD 0 < a.weight.getD 0 ∨
        (a.weight.getD 0 = b.weight.getD 0 ∧ a.term < b.term)) ∧
    MemoryTrie.complete (MemoryTrie.insert makeNode "ab" (some ⟨some true⟩)) "a" 5 =
      MemoryTrie.complete (MemoryTrie.insert makeNode "ab" (some ⟨some true⟩)) "a" 5 :=
  claim_C6 (MemoryTrie.insert makeNode "ab" (some ⟨some true⟩))
    (MemoryTrie.insert makeNode "ab" (some ⟨some true⟩)) "a" 5
    (MemoryTrie.wf_insert makeNode "ab" (some ⟨some true⟩) MemoryTrie.wf_makeNode)
    (MemoryTrie.wf_insert makeNode "ab" (some ⟨some true⟩) MemoryTrie.wf_makeNode)
    (MemoryTrie.nequiv_refl
      (MemoryTrie.nodeSize (MemoryTrie.insert makeNode "ab" (some ⟨some true⟩)))
      (MemoryTrie.insert makeNode "ab" (some ⟨some true⟩)) (le_refl _))

/-- C7: for every consistent total comparator, topK returns the empty
array when k <= 0 and otherwise an array of length min(k, number of items)
that is monotone non-decreasing under the comparator and forms a best-k
multiset: the remaining items all compare no better than every returned
one. -/
theorem claim_C7 {α : Type} (cmp : α → α → ℚ) (hc : IsTotalCmp cmp) (items : List α)
    (k : Int) :
    (k ≤ 0 → MinHeapTopKSelector.topK items k cmp = []) ∧
    (0 < k →
      (MinHeapTopKSelector.topK items k cmp).length = min k.toNat items.length ∧
      (MinHeapTopKSelector.topK items k cmp).Pairwise (fun a b => cmp a b ≤ 0) ∧
      ∃ rest, items.Perm (MinHeapTopKSelector.topK items k cmp ++ rest) ∧
        ∀ d ∈ rest, ∀ y ∈ MinHeapTopKSelector.topK items k cmp, cmp y d ≤ 0) := by
  constructor
  · intro hk
    unfold MinHeapTopKSelector.topK
    rw [if_pos hk]
  · intro hk
    exact topK_correct cmp hc items k hk

/-- C7 witness: the ascending rational comparator on five items with k = 3
satisfies the comparator contract and the theorem returns the length
clause evaluated at those inputs. -/
theorem claim_C7_witness :
    (0 : Int) < 3 ∧
    (MinHeapTopKSelector.topK [5, 1, 3, 2, 4] 3 (fun a b : ℚ => a - b)).length =
      min (3 : Int).toNat ([5, 1, 3, 2, 4] : List ℚ).length :=
  ⟨by decide,
    ((claim_C7 (fun a b : ℚ => a - b)
      ⟨fun a b => ⟨fun h => by dsimp only at h ⊢; linarith, fun h => by dsimp only at h ⊢; linarith⟩,
        fun a b c h1 h2 => by dsimp only at h1 h2 ⊢; linarith⟩
      [5, 1, 3, 2, 4] 3).2 (by decide)).1⟩

/-- C8: with removeStopWords the tokenizer emits exactly the non-stop-word
tokens of the unfiltered stream, unchanged; and in the unfiltered stream
the position field of the token at index j is j, i.e. positions count all
maximal alphanumeric runs including the filtered stop words. -/
theorem claim_C8 (text : String) (nc : Option Bool) :
    SimpleTokenizer.tokenize text ⟨nc, some true⟩ =
      (SimpleTokenizer.tokenize text ⟨nc, some false⟩).filter
        (fun t => decide (¬ t.term ∈ DEFAULT_STOP_WORDS)) ∧
    ∀ (j : Nat) (tok : Token),
      (SimpleTokenizer.tokenize text ⟨nc, some false⟩)[j]? = some tok → tok.position = j := by
  constructor
  · exact tokenizeAux_removeStop DEFAULT_STOP_WORDS (nc.getD true) text.data.length
      text.data 0 0 (le_refl _)
  · intro j tok htok
    have htok2 : (tokenizeAux DEFAULT_STOP_WORDS (nc.getD true) false text.data.length
        text.data 0 0)[j]? = some tok := htok
    have hj : j < (tokenizeAux DEFAULT_STOP_WORDS (nc.getD true) false text.data.length
        text.data 0 0).length := getElem?_lt_length htok2
    have hpos := tokenizeAux_positions DEFAULT_STOP_WORDS (nc.getD true) text.data.length
      text.data 0 0 (le_refl _)
    have h1 : ((tokenizeAux DEFAULT_STOP_WORDS (nc.getD true) false text.data.length
        text.data 0 0).map Token.position)[j]? = some tok.position := by
      rw [List.getElem?_map, htok2]
      rfl
    rw [hpos, List.getElem?_range' 0 1 hj] at h1
    injection h1 with h2
    omega

/-- C8 witness: on the text "the cat" the filtered stream equals the filter
of the unfiltered one, and the unfiltered token at index 1 is cat with
position 1 (the stop word the occupied position 0). -/
theorem claim_C8_witness :
    (SimpleTokenizer.tokenize "the cat" ⟨some true, some true⟩ =
      (SimpleTokenizer.tokenize "the cat" ⟨some true, some false⟩).filter
        (fun t => decide (¬ t.term ∈ DEFAULT_STOP_WORDS))) ∧
    ((SimpleTokenizer.tokenize "the cat" ⟨some true, some false⟩)[1]? =
        some ⟨"cat", 1, 4, 7⟩ ∧
      (⟨"cat", 1, 4, 7⟩ : Token).position = 1) :=
  ⟨(claim_C8 "the cat" (some true)).1,
    by decide,
    (claim_C8 "the cat" (some true)).2 1 ⟨"cat", 1, 4, 7⟩ (by decide)⟩

/-- C9: complete truncates the depth-first lexicographic enumeration of
matching terminals to the limit before sorting by weight, so the sort only
ranks that prefix of the traversal; consequently a matching terminal of
strictly greater weight than everything returned can be missing, as on the
concrete trie holding aa with weight 1 and ab with weight 2 where
complete a 1 returns only aa. -/
theorem claim_C9 :
    (∀ (t : TrieNode) (pfx : String) (limit : Nat) (cur : TrieNode),
      MemoryTrie.navigateAux t pfx.data = some cur →
      MemoryTrie.complete t pfx limit =
        (jsSort MemoryTrie.trieCmp
          ((MemoryTrie.lexEntries pfx [] cur).take limit)).take limit) ∧
    (∃ t : TrieNode,
      MemoryTrie.has t "ab" = true ∧
      (MemoryTrie.navigateAux t ("ab" : String).data).map TrieNode.weight = some 2 ∧
      MemoryTrie.complete t "a" 1 = [⟨"aa", some 1⟩]) := by
  constructor
  · exact fun t pfx limit cur h => MemoryTrie.complete_eq t pfx limit cur h
  · refine ⟨MemoryTrie.insert
      (MemoryTrie.insert (MemoryTrie.insert makeNode "ab" (some ⟨some true⟩)) "ab"
        (some ⟨some true⟩))
      "aa" (some ⟨some true⟩), ?_, ?_, ?_⟩
    · decide
    · decide
    · decide

/-- C9 witness: the traversal characterisation applied at the root of the
empty trie with the empty prefix, whose navigation hypothesis holds by
computation. -/
theorem claim_C9_witness :
    MemoryTrie.navigateAux makeNode ("" : String).data = some makeNode ∧
    MemoryTrie.complete makeNode "" 1 =
      (jsSort MemoryTrie.trieCmp ((MemoryTrie.lexEntries "" [] makeNode).take 1)).take 1 :=
  ⟨rfl, claim_C9.1 makeNode "" 1 makeNode rfl⟩

/-- C10: search is read-only.  In the state-passing embedding, the state
returned by search has the same document registry, the same docLengths
map, an index with identical postings and stats for every term, and the
identical trie. -/
theorem claim_C10 (M : MathOps) (s : EngineState) (q : String) (o : Option SearchOptions) :
    (MemorySearchEngine.search M s q o).2.docs = s.docs ∧
    (MemorySearchEngine.search M s q o).2.docLengths = s.docLengths ∧
    (∀ t, MemoryInvertedIndex.getPostings (MemorySearchEngine.search M s q o).2.index t =
      MemoryInvertedIndex.getPostings s.index t) ∧
    MemoryInvertedIndex.getStats (MemorySearchEngine.search M s q o).2.index =
      MemoryInvertedIndex.getStats s.index ∧
    (MemorySearchEngine.search M s q o).2.trie = s.trie :=
  ⟨rfl, rfl, fun _ => rfl, rfl, rfl⟩
